import Mathlib

/-!
Verification development for the audio-duplicate-finder repository.

The TypeScript sources under src/ are shallowly embedded below:

* JavaScript numbers are modelled by the exact rational type `JsRat`
  (a fraction of machine-unbounded integers with a positive denominator).
  The embedded programs only perform arithmetic far away from the
  precision limits of IEEE doubles, so exact rationals are used for all
  number values.  Integer-valued quantities (match scores, counters) are
  modelled by `Nat`/`Int` where the source only ever produces integers.
* JavaScript strings are modelled by `String`; the repository only
  processes file paths and tags, and all character-class operations of
  the source regexes are implemented ASCII-faithfully below.
* `Map`/`Set` objects are modelled by association lists / lists without
  duplicates, preserving the insertion orders the source relies on.
* `Array.prototype.sort` (a stable sort in modern engines) is modelled
  by a stable insertion sort; for the consistent comparators used by the
  source the stable result is unique, so this is a faithful model.
* Unbounded `while` loops (the two breadth-first searches) are given a
  fuel argument so that every definition is structurally recursive and
  kernel-computable; the fuel passed at each call site provably bounds
  the number of loop iterations.
-/

/-! ## Exact rational numbers standing in for JavaScript numbers -/

/-- A rational number with a positive denominator, used to model
JavaScript (IEEE double) numbers exactly.  All operations reduce inside
the kernel, unlike the Mathlib `Rat` instances. -/
structure JsRat where
  num : Int
  den : Int
  den_pos : 0 < den

namespace JsRat

def ofInt (n : Int) : JsRat := ⟨n, 1, Int.zero_lt_one⟩

def ofNat (n : Nat) : JsRat := ⟨(n : Int), 1, Int.zero_lt_one⟩

instance (n : Nat) : OfNat JsRat n := ⟨ofNat n⟩

instance : Coe Nat JsRat := ⟨ofNat⟩

instance : Coe Int JsRat := ⟨ofInt⟩

def add (x y : JsRat) : JsRat :=
  ⟨x.num * y.den + y.num * x.den, x.den * y.den, mul_pos x.den_pos y.den_pos⟩

def sub (x y : JsRat) : JsRat :=
  ⟨x.num * y.den - y.num * x.den, x.den * y.den, mul_pos x.den_pos y.den_pos⟩

def mul (x y : JsRat) : JsRat :=
  ⟨x.num * y.num, x.den * y.den, mul_pos x.den_pos y.den_pos⟩

def neg (x : JsRat) : JsRat := ⟨-x.num, x.den, x.den_pos⟩

/-- Exact division.  Division by zero is unreachable in the embedded
code (every division site is guarded), so it is given an arbitrary
total value. -/
def div (x y : JsRat) : JsRat :=
  if h : 0 < y.num then ⟨x.num * y.den, x.den * y.num, mul_pos x.den_pos h⟩
  else if h2 : y.num < 0 then
    ⟨-(x.num * y.den), x.den * (-y.num), mul_pos x.den_pos (by omega)⟩
  else ⟨0, 1, Int.zero_lt_one⟩

def abs (x : JsRat) : JsRat := ⟨|x.num|, x.den, x.den_pos⟩

instance : Add JsRat := ⟨add⟩

instance : Sub JsRat := ⟨sub⟩

instance : Mul JsRat := ⟨mul⟩

instance : Div JsRat := ⟨div⟩

instance : Neg JsRat := ⟨neg⟩

/-- Standard order on fractions with positive denominators. -/
protected def le (x y : JsRat) : Prop := x.num * y.den ≤ y.num * x.den

protected def lt (x y : JsRat) : Prop := x.num * y.den < y.num * x.den

instance : LE JsRat := ⟨JsRat.le⟩

instance : LT JsRat := ⟨JsRat.lt⟩

instance : DecidableRel (α := JsRat) (· ≤ ·) :=
  fun x y => inferInstanceAs (Decidable (x.num * y.den ≤ y.num * x.den))

instance : DecidableRel (α := JsRat) (· < ·) :=
  fun x y => inferInstanceAs (Decidable (x.num * y.den < y.num * x.den))

/-- Semantic equality test (JavaScript `===` on numbers). -/
def beq (x y : JsRat) : Bool := x.num * y.den == y.num * x.den

/-- JavaScript truthiness of a number: anything other than 0 (and NaN,
which does not arise here) is truthy. -/
def truthy (x : JsRat) : Bool := !(x.num == 0)

instance : DecidableEq JsRat := fun x y =>
  decidable_of_iff (x.num = y.num ∧ x.den = y.den) (by cases x; cases y; simp)

end JsRat

/-! ## String helpers shared by the embedded modules

These implement, character by character, the JavaScript string and
regular-expression operations used by the source (ASCII semantics; the
repository only feeds file paths and tags through them). -/

namespace Js

/-- The regex word class `\w`, i.e. `[A-Za-z0-9_]`. -/
def isWordChar (c : Char) : Bool := c.isAlphanum || c == '_'

/-- The regex space class `\s` restricted to ASCII whitespace. -/
def isSpaceChar (c : Char) : Bool :=
  c == ' ' || c == '\t' || c == '\n' || c == '\r' || c == '\x0b' || c == '\x0c'

/-- JavaScript `String.prototype.toLowerCase` (ASCII semantics). -/
def lowerStr (s : String) : String := String.mk (s.toList.map Char.toLower)

/-- Splits a character list into its maximal runs of
non-space characters, accumulator first (used for the `\s+` → single
space collapse followed by `trim`). -/
def splitWordsAux : List Char → List Char → List (List Char)
  | cur, [] => if cur.isEmpty then [] else [cur.reverse]
  | cur, c :: cs =>
    if isSpaceChar c then
      if cur.isEmpty then splitWordsAux [] cs
      else cur.reverse :: splitWordsAux [] cs
    else splitWordsAux (c :: cur) cs

/-- `normalizeString` of `duplicates.ts`: lowercase, drop `[^\w\s]`,
collapse whitespace runs to single spaces, trim. -/
def normalizeString (str : String) : String :=
  let lowered := str.toList.map Char.toLower
  let kept := lowered.filter (fun c => isWordChar c || isSpaceChar c)
  String.intercalate " " ((splitWordsAux [] kept).map String.mk)

/-- JavaScript `String.prototype.trim` (ASCII whitespace). -/
def trimStr (s : String) : String :=
  String.mk (((s.toList.dropWhile isSpaceChar).reverse.dropWhile isSpaceChar).reverse)

/-- The replacement `replace(/\.[^.]+$/, '')`: strip a final extension
(the last dot and the nonempty dot-free suffix after it). -/
def stripExt (l : List Char) : List Char :=
  let r := l.reverse
  let suffix := r.takeWhile (· ≠ '.')
  if suffix.length < r.length && !suffix.isEmpty then
    (r.drop (suffix.length + 1)).reverse
  else l

/-- Separator class of `replace(/^(\d{1,3}[\.\-\s_])+/, '')`. -/
def numSep (c : Char) : Bool := c == '.' || c == '-' || c == '_' || isSpaceChar c

/-- One-pass worker for `replace(/^(\d{1,3}[\.\-\s_])+/, '')`; each
iteration removes one `\d{1,3}[\.\-\s_]` unit from the front.  The fuel
is at least the list length, which bounds the iteration count. -/
def stripLeadingNumsAux : Nat → List Char → List Char
  | 0, l => l
  | fuel + 1, l =>
    let digits := l.takeWhile Char.isDigit
    if 1 ≤ digits.length && digits.length ≤ 3 &&
        ((l.drop digits.length).head?.map numSep).getD false then
      stripLeadingNumsAux fuel (l.drop (digits.length + 1))
    else l

def stripLeadingNums (l : List Char) : List Char := stripLeadingNumsAux l.length l

/-- The replacement `replace(/\(\d+\)$/, '')`. -/
def stripTrailParenNum (l : List Char) : List Char :=
  match l.reverse with
  | ')' :: rest =>
    let ds := rest.takeWhile Char.isDigit
    if !ds.isEmpty && (rest.drop ds.length).head? = some '(' then
      (rest.drop (ds.length + 1)).reverse
    else l
  | _ => l

/-- The replacement `replace(/\[\d+\]$/, '')`. -/
def stripTrailBrackNum (l : List Char) : List Char :=
  match l.reverse with
  | ']' :: rest =>
    let ds := rest.takeWhile Char.isDigit
    if !ds.isEmpty && (rest.drop ds.length).head? = some '[' then
      (rest.drop (ds.length + 1)).reverse
    else l
  | _ => l

/-- Word boundary `\b` test against the previous character
(`none` at the start of the string). -/
def boundaryBefore (prev : Option Char) : Bool :=
  match prev with
  | none => true
  | some c => !isWordChar c

/-- Word boundary `\b` test against the rest of the string. -/
def boundaryAfter (l : List Char) : Bool :=
  match l.head? with
  | none => true
  | some c => !isWordChar c

/-- Match length of `\b\d{3,4}k(bps)?\b` (case-insensitive) at the
current position, given the previous character. -/
def matchKbpsLen (prev : Option Char) (l : List Char) : Option Nat :=
  if !boundaryBefore prev then none
  else
    let digits := l.takeWhile Char.isDigit
    if digits.length == 3 || digits.length == 4 then
      match l.drop digits.length with
      | k :: rest =>
        if k.toLower == 'k' then
          if (rest.take 3).map Char.toLower = ['b', 'p', 's'] &&
              boundaryAfter (rest.drop 3) then
            some (digits.length + 4)
          else if boundaryAfter rest then some (digits.length + 1)
          else none
        else none
      | [] => none
    else none

/-- Global-replace worker for `replace(/\b\d{3,4}k(bps)?\b/gi, '')`;
scanning resumes after each match, so the boundary context is the last
character of the removed match. -/
def stripKbpsAux : Nat → Option Char → List Char → List Char
  | 0, _, l => l
  | fuel + 1, prev, l =>
    match l with
    | [] => []
    | c :: cs =>
      match matchKbpsLen prev (c :: cs) with
      | some n => stripKbpsAux fuel ((c :: cs).getD (n - 1) ' ') ((c :: cs).drop n)
      | none => c :: stripKbpsAux fuel (some c) cs

def stripKbps (l : List Char) : List Char := stripKbpsAux l.length none l

/-- Match test for `\b(128|192|256|320)\b` at the current position. -/
def matchBitrateNum (prev : Option Char) (l : List Char) : Bool :=
  boundaryBefore prev &&
    (l.take 3 = ['1', '2', '8'] || l.take 3 = ['1', '9', '2'] ||
     l.take 3 = ['2', '5', '6'] || l.take 3 = ['3', '2', '0']) &&
    boundaryAfter (l.drop 3)

/-- Global-replace worker for `replace(/\b(128|192|256|320)\b/g, '')`. -/
def stripBitrateNumsAux : Nat → Option Char → List Char → List Char
  | 0, _, l => l
  | fuel + 1, prev, l =>
    match l with
    | [] => []
    | c :: cs =>
      if matchBitrateNum prev (c :: cs) then
        stripBitrateNumsAux fuel ((c :: cs).getD 2 ' ') ((c :: cs).drop 3)
      else c :: stripBitrateNumsAux fuel (some c) cs

def stripBitrateNums (l : List Char) : List Char := stripBitrateNumsAux l.length none l

/-- Global-replace worker for the lazy bracket patterns
`replace(/\[.*?\]/g, '')` and `replace(/\(.*?\)/g, '')`: on an opening
delimiter, remove through the first closing delimiter if one exists. -/
def stripDelimAux (openC closeC : Char) : Nat → List Char → List Char
  | 0, l => l
  | fuel + 1, l =>
    match l with
    | [] => []
    | c :: cs =>
      if c == openC then
        match cs.findIdx? (· == closeC) with
        | some i => stripDelimAux openC closeC fuel (cs.drop (i + 1))
        | none => c :: stripDelimAux openC closeC fuel cs
      else c :: stripDelimAux openC closeC fuel cs

/-- First index of `needle` as a contiguous sublist of `hay`
(JavaScript `String.prototype.indexOf`). -/
def findSubIdx (needle : List Char) : List Char → Option Nat
  | [] => if needle.isEmpty then some 0 else none
  | c :: cs =>
    if needle.isPrefixOf (c :: cs) then some 0
    else (findSubIdx needle cs).map (· + 1)

/-- JavaScript `split(sep)` for a one-character separator, written
structurally (the core `String.splitOn` does not reduce in the
kernel). -/
def splitOnCharAux (sep : Char) : List Char → List Char → List String
  | cur, [] => [String.mk cur.reverse]
  | cur, c :: cs =>
    if c == sep then String.mk cur.reverse :: splitOnCharAux sep [] cs
    else splitOnCharAux sep (c :: cur) cs

def splitOnChar (sep : Char) (s : String) : List String := splitOnCharAux sep [] s.toList

/-- JavaScript `String.prototype.startsWith`. -/
def startsWithStr (s px : String) : Bool := px.toList.isPrefixOf s.toList

/-- JavaScript `String.prototype.endsWith`. -/
def endsWithStr (s sfx : String) : Bool := sfx.toList.reverse.isPrefixOf s.toList.reverse

/-- JavaScript `String.prototype.includes`. -/
def includesStr (s sub : String) : Bool := (findSubIdx sub.toList s.toList).isSome

/-- JavaScript truthiness of a nullable string: non-null and nonempty. -/
def strTruthy (o : Option String) : Bool :=
  match o with
  | none => false
  | some s => s != ""

/-- JavaScript truthiness of a nullable number. -/
def numTruthy (o : Option JsRat) : Bool :=
  match o with
  | none => false
  | some q => JsRat.truthy q

/-- JavaScript truthiness of a nullable integer. -/
def intTruthy (o : Option Int) : Bool :=
  match o with
  | none => false
  | some n => n != 0

end Js

/-! ## Data model (`types.ts`) -/

/-- `AudioFileMetadata` of `types.ts`, one record per scanned file. -/
structure AudioFileMetadata where
  path : String
  filename : String
  size : JsRat
  duration : Option JsRat
  bitrate : Option JsRat
  sampleRate : Option JsRat
  bitDepth : Option JsRat
  title : Option String
  artist : Option String
  album : Option String
  year : Option Int
  trackNumber : Option Int
  genre : Option String
  format : String
  lossless : Bool
  scannedAt : String
deriving DecidableEq

/-- `Config` of `types.ts`. -/
structure Config where
  scanPaths : List String
  excludePatterns : List String
  durationToleranceSeconds : JsRat
  duplicateScoreThreshold : JsRat
  supportedExtensions : List String

/-- `DuplicateGroup` of `types.ts`.  The confidence is integer-valued
(`Math.round` output), so it is carried as a `Nat`. -/
structure DuplicateGroup where
  id : String
  confidence : Nat
  files : List String
  matchReasons : List String
  suggestedKeep : Option String
deriving DecidableEq

/-- The `Map<string, AudioFileMetadata>` store: an association list
keyed by path, in insertion order with unique keys. -/
abbrev FilesMap := List (String × AudioFileMetadata)

/-- `files.get(path) ?? null`. -/
def FilesMap.get? (files : FilesMap) (path : String) : Option AudioFileMetadata :=
  ((List.find? (fun e => e.1 = path) files).map (·.2))

/-- `Array.from(files.values())` (insertion order). -/
def FilesMap.values (files : FilesMap) : List AudioFileMetadata :=
  List.map (·.2) files

/-- Store well-formedness: every record sits under its own path as key.
This is the data-model invariant of the metadata store (the path is the
unique key), maintained by `files.set(metadata.path, metadata)`. -/
def FilesMap.WF (files : FilesMap) : Prop :=
  ∀ e ∈ files, e.2.path = e.1

/-- Key uniqueness of the store (a JavaScript `Map` keeps one entry per
key). -/
def FilesMap.KeysNodup (files : FilesMap) : Prop :=
  (List.map Prod.fst files).Nodup

instance (files : FilesMap) : Decidable (FilesMap.WF files) := by
  unfold FilesMap.WF
  infer_instance

instance (files : FilesMap) : Decidable (FilesMap.KeysNodup files) := by
  unfold FilesMap.KeysNodup
  infer_instance

/-! ## Stable sort standing in for `Array.prototype.sort`

`Array.prototype.sort` is stable in all modern engines.  For a
consistent comparator a stable sort has a unique result, so stable
insertion sort is a faithful model.  `cmpLE x y` means the comparator
returns a value `≤ 0` on `(x, y)`, i.e. `x` may stay in front of `y`. -/

def insertSorted (cmpLE : α → α → Bool) (x : α) : List α → List α
  | [] => [x]
  | y :: ys => if cmpLE x y then x :: y :: ys else y :: insertSorted cmpLE x ys

def sortJs (cmpLE : α → α → Bool) : List α → List α
  | [] => []
  | x :: xs => insertSorted cmpLE x (sortJs cmpLE xs)

/-! ## `metadata.ts` (quality helpers consumed by the matcher) -/

/-- `countFilledTags` of `metadata.ts` (JavaScript truthiness per tag). -/
def countFilledTags (m : AudioFileMetadata) : Nat :=
  (if Js.strTruthy m.title then 1 else 0) +
  (if Js.strTruthy m.artist then 1 else 0) +
  (if Js.strTruthy m.album then 1 else 0) +
  (if Js.intTruthy m.year then 1 else 0) +
  (if Js.intTruthy m.trackNumber then 1 else 0) +
  (if Js.strTruthy m.genre then 1 else 0)

/-- `getQualityScore` of `metadata.ts`. -/
def getQualityScore (m : AudioFileMetadata) : JsRat :=
  let s : JsRat := if m.lossless then 1000 else 0
  let s := match m.bitrate with
    | some b => if JsRat.truthy b then s + b else s
    | none => s
  let s := match m.sampleRate with
    | some sr => if JsRat.truthy sr then s + sr / 100 else s
    | none => s
  let s := match m.bitDepth with
    | some bd => if JsRat.truthy bd then s + bd * 10 else s
    | none => s
  s

/-! ## `duplicates.ts`: pairwise matcher -/

namespace Dup

/-- Levenshtein edit distance of the external `fast-levenshtein`
library (standard definition), with a structural fuel; a fuel of
`xs.length + ys.length` covers every recursion path. -/
def levAux : Nat → List Char → List Char → Nat
  | _, [], ys => ys.length
  | _, xs, [] => xs.length
  | 0, _ :: _, _ :: _ => 0
  | fuel + 1, x :: xs, y :: ys =>
    if x = y then levAux fuel xs ys
    else 1 + min (levAux fuel xs (y :: ys)) (min (levAux fuel (x :: xs) ys) (levAux fuel xs ys))

def levenshtein (xs ys : List Char) : Nat := levAux (xs.length + ys.length) xs ys

/-- `MatchResult` of `duplicates.ts`; the score is a sum of the fixed
integer weights 40/30/20/10/10, hence a `Nat`. -/
structure MatchResult where
  score : Nat
  reasons : List String
deriving DecidableEq

/-- `checkDurationMatch` of `duplicates.ts`. -/
def checkDurationMatch (a b : AudioFileMetadata) (tolerance : JsRat) : Bool :=
  match a.duration, b.duration with
  | some da, some db => decide ((da - db).abs ≤ tolerance)
  | _, _ => false

/-- `checkArtistTitleMatch` of `duplicates.ts` (empty strings are falsy). -/
def checkArtistTitleMatch (a b : AudioFileMetadata) : Bool :=
  if !(Js.strTruthy a.artist) || !(Js.strTruthy b.artist) ||
      !(Js.strTruthy a.title) || !(Js.strTruthy b.title) then false
  else
    Js.normalizeString (a.artist.getD "") == Js.normalizeString (b.artist.getD "") &&
    Js.normalizeString (a.title.getD "") == Js.normalizeString (b.title.getD "")

/-- `checkAlbumMatch` of `duplicates.ts`. -/
def checkAlbumMatch (a b : AudioFileMetadata) : Bool :=
  if !(Js.strTruthy a.album) || !(Js.strTruthy b.album) then false
  else Js.normalizeString (a.album.getD "") == Js.normalizeString (b.album.getD "")

/-- `getRootFolder` of `duplicates.ts`. -/
def getRootFolder (path : String) : String :=
  let parts := (Js.splitOnChar '/' path).filter (· ≠ "")
  match parts with
  | [] => path
  | [_] => path
  | p0 :: p1 :: rest =>
    if p0 = "Volumes" then "/" ++ p0 ++ "/" ++ p1
    else if p0 = "Users" then
      match rest with
      | p2 :: _ => "/" ++ p0 ++ "/" ++ p1 ++ "/" ++ p2
      | [] => "/" ++ p0
    else "/" ++ p0

/-- `checkDifferentLocation` of `duplicates.ts`. -/
def checkDifferentLocation (a b : AudioFileMetadata) : Bool :=
  getRootFolder a.path != getRootFolder b.path

/-- `normalizeFilename` of `duplicates.ts`: the eight successive regex
replacements followed by `normalizeString`. -/
def normalizeFilename (filename : String) : String :=
  let l1 := Js.stripExt filename.toList
  let l2 := Js.stripLeadingNums l1
  let l3 := Js.stripTrailParenNum l2
  let l4 := Js.stripTrailBrackNum l3
  let l5 := Js.stripKbps l4
  let l6 := Js.stripBitrateNums l5
  let l7 := Js.stripDelimAux '[' ']' l6.length l6
  let l8 := Js.stripDelimAux '(' ')' l7.length l7
  Js.normalizeString (String.mk l8)

/-- `ParsedFilename` of `duplicates.ts`. -/
structure ParsedFilename where
  artist : Option String
  title : Option String

/-- `parseFilenameForComparison` of `duplicates.ts`: first separator in
the fixed separator list that occurs in the extension-stripped name. -/
def parseFilenameForComparison (filename : String) : ParsedFilename :=
  let withoutExt := Js.stripExt filename.toList
  let seps := [" - ", " – ", " — ", "_-_", " _ "]
  match seps.findSome? (fun sep =>
      (Js.findSubIdx sep.toList withoutExt).map (fun i => (i, sep))) with
  | some (i, sep) =>
    { artist := some (Js.trimStr (String.mk (withoutExt.take i)))
      title := some (Js.trimStr (String.mk (withoutExt.drop (i + sep.toList.length)))) }
  | none => { artist := none, title := none }

/-- `checkFilenameMatch` of `duplicates.ts`.  The floating comparison
`similarity >= 0.8` with `similarity = 1 - distance / maxLen` is
embedded as the exact rational inequality. -/
def checkFilenameMatch (a b : AudioFileMetadata) : Bool :=
  let parsedA := parseFilenameForComparison a.filename
  let parsedB := parseFilenameForComparison b.filename
  let parsedHit :=
    Js.strTruthy parsedA.artist && Js.strTruthy parsedB.artist &&
    Js.strTruthy parsedA.title && Js.strTruthy parsedB.title &&
    (Js.normalizeString (parsedA.artist.getD "") == Js.normalizeString (parsedB.artist.getD "")) &&
    (Js.normalizeString (parsedA.title.getD "") == Js.normalizeString (parsedB.title.getD ""))
  if parsedHit then true
  else
    let normalizedA := normalizeFilename a.filename
    let normalizedB := normalizeFilename b.filename
    if normalizedA == normalizedB then true
    else
      let maxLen := max normalizedA.length normalizedB.length
      if maxLen == 0 then false
      else
        let distance := levenshtein normalizedA.toList normalizedB.toList
        decide ((4 : JsRat) / 5 ≤ (1 : JsRat) - JsRat.ofNat distance / JsRat.ofNat maxLen)

/-- `compareFiles` of `duplicates.ts`: five independent additive
signals. -/
def compareFiles (a b : AudioFileMetadata) (config : Config) : MatchResult :=
  let acc : Nat × List String := (0, [])
  let acc := if checkDurationMatch a b config.durationToleranceSeconds then
      (acc.1 + 40, acc.2 ++ ["duration"]) else acc
  let acc := if checkArtistTitleMatch a b then
      (acc.1 + 30, acc.2 ++ ["artist+title"]) else acc
  let acc := if checkFilenameMatch a b then
      (acc.1 + 20, acc.2 ++ ["filename"]) else acc
  let acc := if checkAlbumMatch a b then
      (acc.1 + 10, acc.2 ++ ["album"]) else acc
  let acc := if checkDifferentLocation a b then
      (acc.1 + 10, acc.2 ++ ["different-location"]) else acc
  { score := acc.1, reasons := acc.2 }

end Dup

namespace Dup

/-! ## `duplicates.ts`: match graph construction -/

/-- The `Map<string, Set<string>>` adjacency structure: association
list keyed by path (insertion order), each value a duplicate-free list
standing for a `Set<string>` in insertion order. -/
abbrev Matches := List (String × List String)

/-- `matches.get(p)` with a missing key giving the empty set. -/
def Matches.neighbors (m : Matches) (p : String) : List String :=
  (((List.find? (fun e => e.1 = p)) m).map (·.2)).getD []

/-- `matches.keys()` in insertion order. -/
def Matches.keys (m : Matches) : List String := List.map (·.1) m

/-- `if (!matches.has(p)) matches.set(p, new Set())`. -/
def Matches.ensureKey (m : Matches) (p : String) : Matches :=
  if m.any (fun e => e.1 = p) then m else m ++ [(p, [])]

/-- `matches.get(p)!.add(q)`. -/
def Matches.addNeighbor (m : Matches) (p q : String) : Matches :=
  m.map (fun e => if e.1 = p then (e.1, if e.2.contains q then e.2 else e.2 ++ [q]) else e)

/-- The body of the double loop of `findDuplicates` for one qualifying
pair: make both keys present, then record the edge in both directions. -/
def Matches.addEdge (m : Matches) (pA pB : String) : Matches :=
  Matches.addNeighbor (Matches.addNeighbor ((m.ensureKey pA).ensureKey pB) pA pB) pB pA

/-- All ordered pairs `(l[i], l[j])` with `i < j`, in loop order. -/
def listPairs : List α → List (α × α)
  | [] => []
  | x :: xs => xs.map (fun y => (x, y)) ++ listPairs xs

/-- The double loop of `findDuplicates` building the match graph from
every pair scoring at or above `duplicateScoreThreshold`. -/
def buildMatches (fileList : List AudioFileMetadata) (config : Config) : Matches :=
  (listPairs fileList).foldl
    (fun m (ab : AudioFileMetadata × AudioFileMetadata) =>
      if JsRat.ofNat (compareFiles ab.1 ab.2 config).score < config.duplicateScoreThreshold
      then m
      else m.addEdge ab.1.path ab.2.path)
    []

/-! ## `duplicates.ts`: `buildTransitiveClusters` (breadth-first search)

The source pops from the front of the queue (`queue.shift()`) and
pushes unvisited neighbours at the back; the `visited` set is shared
across the outer loop.  Sets are modelled as duplicate-free lists in
insertion order, and the loop receives a fuel argument that provably
bounds its iteration count. -/

/-- Inner BFS loop of `buildTransitiveClusters`: state is
`(visited, cluster, queue)`. -/
def clusterAux (m : Matches) : Nat → List String → List String → List String →
    List String × List String
  | 0, visited, cluster, _ => (visited, cluster)
  | _ + 1, visited, cluster, [] => (visited, cluster)
  | fuel + 1, visited, cluster, current :: rest =>
    if visited.contains current then clusterAux m fuel visited cluster rest
    else
      let visited' := visited ++ [current]
      let cluster' := cluster ++ [current]
      let queue' := rest ++ (m.neighbors current).filter (fun n => !visited'.contains n)
      clusterAux m fuel visited' cluster' queue'

/-- Total size of the adjacency structure; bounds the number of
neighbours pushed in any single BFS step. -/
def Matches.totalSize (m : Matches) : Nat := (m.map (fun e => e.2.length)).sum

/-- A fuel amount sufficient for `clusterAux` from the given state (a
generous overcount of the decreasing measure used in the proofs). -/
def clusterFuel (m : Matches) (queue : List String) : Nat :=
  (m.length + m.totalSize + queue.length + 1) * (m.totalSize + 2) + queue.length + 1

/-- Every node occurring in the adjacency structure. -/
def Matches.nodes (m : Matches) : List String := m.flatMap (fun e => e.1 :: e.2)

/-- Decreasing measure of the BFS loop state. -/
def clusterMeasure (m : Matches) (visited queue : List String) : Nat :=
  ((m.nodes.toFinset ∪ queue.toFinset) \ visited.toFinset).card * (m.totalSize + 2) +
    queue.length

/-- Symmetry of the adjacency structure. -/
def SymmetricNeighbors (m : Matches) : Prop :=
  ∀ p q : String, q ∈ m.neighbors p → p ∈ m.neighbors q

/-- Outer loop of `buildTransitiveClusters` over `matches.keys()`. -/
def clustersOuter (m : Matches) : List String → List String → List (List String) →
    List (List String)
  | _, [], acc => acc
  | visited, p :: ps, acc =>
    if visited.contains p then clustersOuter m visited ps acc
    else
      let r := clusterAux m (clusterFuel m [p]) visited [] [p]
      clustersOuter m r.1 ps (if r.2.length > 1 then acc ++ [r.2] else acc)

/-- `buildTransitiveClusters` of `duplicates.ts`. -/
def buildTransitiveClusters (m : Matches) : List (List String) :=
  clustersOuter m [] m.keys []

/-! ## `duplicates.ts`: group packaging -/

/-- `Math.round(x)` for a nonnegative exact ratio of naturals:
`round(t / c) = (2 t + c) / (2 c)` in integer division. -/
def roundRatio (total comparisons : Nat) : Nat := (2 * total + comparisons) / (2 * comparisons)

/-- `calculateGroupConfidence` of `duplicates.ts`: rounded mean of the
`compareFiles` scores over every pair of group members present in the
store (missing members are skipped by the source). -/
def calculateGroupConfidence (groupFiles : List String) (files : FilesMap)
    (config : Config) : Nat :=
  let scores := (listPairs groupFiles).filterMap
    (fun pq : String × String =>
      match files.get? pq.1, files.get? pq.2 with
      | some a, some b => some (compareFiles a b config).score
      | _, _ => none)
  if scores.length = 0 then 0
  else roundRatio scores.sum scores.length

/-- Set-union preserving first-insertion order (`Set.add` in a loop). -/
def addNewReasons (acc : List String) (l : List String) : List String :=
  l.foldl (fun acc r => if acc.contains r then acc else acc ++ [r]) acc

/-- `collectMatchReasons` of `duplicates.ts`. -/
def collectMatchReasons (groupFiles : List String) (files : FilesMap)
    (config : Config) : List String :=
  (listPairs groupFiles).foldl
    (fun acc pq =>
      match files.get? pq.1, files.get? pq.2 with
      | some a, some b => addNewReasons acc (compareFiles a b config).reasons
      | _, _ => acc)
    []

/-- `selectBestFile` of `duplicates.ts`: strict-improvement fold with
initial best score `-1`. -/
def selectBestFile (groupFiles : List String) (files : FilesMap) : Option String :=
  (groupFiles.foldl
    (fun (st : Option String × JsRat) path =>
      match files.get? path with
      | none => st
      | some metadata =>
        let combinedScore := JsRat.ofNat (countFilledTags metadata * 1000) +
          getQualityScore metadata
        if combinedScore ≤ st.2 then st else (some path, combinedScore))
    (none, JsRat.ofInt (-1))).1

/-- `findDuplicates` of `duplicates.ts`: pairwise matching, transitive
clustering, per-group packaging, then a confidence-descending sort. -/
def findDuplicates (files : FilesMap) (config : Config) : List DuplicateGroup :=
  let fileList := files.values
  let m := buildMatches fileList config
  let clusters := buildTransitiveClusters m
  let groups := clusters.enum.map (fun ic : Nat × List String =>
    { id := "group-" ++ toString (ic.1 + 1)
      confidence := calculateGroupConfidence ic.2 files config
      files := ic.2
      matchReasons := collectMatchReasons ic.2 files config
      suggestedKeep := selectBestFile ic.2 files : DuplicateGroup })
  sortJs (fun a b => b.confidence ≤ a.confidence) groups

end Dup

/-! ## `node:path` `dirname` (posix) -/

/-- Node `path.dirname` (posix flavour), as used by the auto-decider:
skip trailing slashes, drop the last component, return its prefix; `.`
when there is no directory part, `/` (or `//`) at the root. -/
def dirname (p : String) : String :=
  let cs := p.toList
  if cs.isEmpty then "."
  else
    let hasRoot := cs.head? = some '/'
    let r := cs.reverse
    let afterTrail := r.dropWhile (· == '/')
    let fromSlash := afterTrail.dropWhile (· != '/')
    let pos := fromSlash.length - 1
    if fromSlash.isEmpty || pos = 0 then (if hasRoot then "/" else ".")
    else if hasRoot && pos = 1 then "//"
    else String.mk (cs.take pos)

/-! ## `auto-decider.ts`, weighted-scoring variant

This is the first variant in the source file (weighted multi-factor
scoring with a score-difference threshold). -/

namespace ADWeighted

/-- The weight vector of the weighted rule configuration. -/
structure ScoringWeights where
  lossless : JsRat
  bitrate : JsRat
  pathPriority : JsRat
  metadataQuality : JsRat

/-- `DuplicateRules` as consumed by the weighted variant. -/
structure DuplicateRules where
  confidenceThreshold : JsRat
  scoreDifferenceThreshold : JsRat
  weights : ScoringWeights
  pathPriority : List String

/-- The decision record produced by the weighted variant. -/
structure ExtendedDecision where
  groupId : String
  keep : List String
  delete : List String
  notDuplicates : Bool
  decisionType : String
  ruleApplied : String
deriving DecidableEq

/-- Per-file score with its breakdown. -/
structure FileScore where
  file : AudioFileMetadata
  score : JsRat
  losslessPart : JsRat
  bitratePart : JsRat
  pathPriorityPart : JsRat
  metadataQualityPart : JsRat

/-- `getFileMetadata` (`files.get(path) ?? null`). -/
def getFileMetadata (path : String) (files : FilesMap) : Option AudioFileMetadata :=
  files.get? path

/-- `calculateLosslessScore`. -/
def calculateLosslessScore (file : AudioFileMetadata) (weight : JsRat) : JsRat :=
  if file.lossless then weight else 0

/-- `calculateBitrateScore`: linear normalisation against the group
min/max bitrate. -/
def calculateBitrateScore (file : AudioFileMetadata) (allFiles : List AudioFileMetadata)
    (weight : JsRat) : JsRat :=
  let bitrates := (allFiles.map (fun f => (f.bitrate.getD 0))).filter (fun b => 0 < b)
  match bitrates with
  | [] => 0
  | b0 :: bs =>
    let maxBitrate := bs.foldl (fun acc b => if acc ≤ b then b else acc) b0
    let minBitrate := bs.foldl (fun acc b => if b ≤ acc then b else acc) b0
    let fileBitrate := file.bitrate.getD 0
    if JsRat.beq maxBitrate minBitrate then weight
    else ((fileBitrate - minBitrate) / (maxBitrate - minBitrate)) * weight

/-- `calculatePathPriorityScore`: rank-proportional weight for the
first matching configured directory. -/
def calculatePathPriorityScore (file : AudioFileMetadata) (pathPriority : List String)
    (weight : JsRat) : JsRat :=
  if pathPriority.isEmpty then 0
  else
    let fileDir := dirname file.path
    let rec go (i : Nat) : List String → JsRat
      | [] => 0
      | priorityPath :: rest =>
        if fileDir == priorityPath || Js.startsWithStr fileDir (priorityPath ++ "/") then
          (JsRat.ofNat (pathPriority.length - i) / JsRat.ofNat pathPriority.length) * weight
        else go (i + 1) rest
    go 0 pathPriority

/-- The test `f !== null && f !== ''` on a nullable string field. -/
def fieldFilledStr (o : Option String) : Bool :=
  match o with
  | none => false
  | some s => s != ""

/-- `calculateMetadataQualityScore`: fraction of the five tag fields
`title, artist, album, genre, year` that satisfy
`f !== null && f !== ''` (a non-null numeric year always does). -/
def calculateMetadataQualityScore (file : AudioFileMetadata) (weight : JsRat) : JsRat :=
  let filledCount : Nat :=
    (if fieldFilledStr file.title then 1 else 0) +
    (if fieldFilledStr file.artist then 1 else 0) +
    (if fieldFilledStr file.album then 1 else 0) +
    (if fieldFilledStr file.genre then 1 else 0) +
    (if file.year.isSome then 1 else 0)
  (JsRat.ofNat filledCount / JsRat.ofNat 5) * weight

/-- `calculateFileScore`: sum of the four weighted components. -/
def calculateFileScore (file : AudioFileMetadata) (allFiles : List AudioFileMetadata)
    (weights : ScoringWeights) (pathPriority : List String) : FileScore :=
  let lossless := calculateLosslessScore file weights.lossless
  let bitrate := calculateBitrateScore file allFiles weights.bitrate
  let pathPriorityScore := calculatePathPriorityScore file pathPriority weights.pathPriority
  let metadataQuality := calculateMetadataQualityScore file weights.metadataQuality
  { file := file
    score := lossless + bitrate + pathPriorityScore + metadataQuality
    losslessPart := lossless
    bitratePart := bitrate
    pathPriorityPart := pathPriorityScore
    metadataQualityPart := metadataQuality }

/-- The evaluation outcome of one group. -/
structure EvaluationResult where
  decision : Option ExtendedDecision
  needsManualReview : Bool
  reason : String

/-- `evaluateGroup` of the weighted variant: guard on resolvable
metadata and confidence, score every member, sort descending
(comparator `b.score - a.score`, stable), and require the gap between
best and second best to reach `scoreDifferenceThreshold`. -/
def evaluateGroup (group : DuplicateGroup) (rules : DuplicateRules)
    (filesMap : FilesMap) : EvaluationResult :=
  let files := group.files.filterMap (fun path => getFileMetadata path filesMap)
  if files.length < 2 then
    { decision := none, needsManualReview := true
      reason := "Could not load metadata for all files" }
  else if JsRat.ofNat group.confidence < rules.confidenceThreshold then
    { decision := none, needsManualReview := true
      reason := "Confidence below threshold" }
  else
    let scores := files.map (fun file =>
      calculateFileScore file files rules.weights rules.pathPriority)
    let sorted := sortJs (fun a b => b.score ≤ a.score) scores
    match sorted with
    | best :: secondBest :: _ =>
      let scoreDifference := best.score - secondBest.score
      if scoreDifference < rules.scoreDifferenceThreshold then
        { decision := none, needsManualReview := true
          reason := "Score difference below threshold" }
      else
        let keepPath := best.file.path
        let deletePaths := group.files.filter (fun p => p ≠ keepPath)
        { decision := some
            { groupId := group.id
              keep := [keepPath]
              delete := deletePaths
              notDuplicates := false
              decisionType := "auto"
              ruleApplied := "weighted-score" }
          needsManualReview := false
          reason := "Keeping file with highest score" }
    | _ =>
      { decision := none, needsManualReview := true
        reason := "Could not load metadata for all files" }

/-- The result record of `applyRulesToGroups`. -/
structure AutoDecisionResult where
  autoDecisions : List ExtendedDecision
  manualGroups : List DuplicateGroup

/-- `group.files.some(f => decisions mention f)`. -/
def hasDecidedFile (group : DuplicateGroup) (decisions : List ExtendedDecision) : Bool :=
  group.files.any (fun f =>
    decisions.any (fun d => d.keep.contains f || d.delete.contains f))

/-- One iteration of the `applyRulesToGroups` loop. -/
def stepGroup (rules : DuplicateRules) (files : FilesMap) (existingDecisions : List String)
    (st : List ExtendedDecision × List DuplicateGroup) (group : DuplicateGroup) :
    List ExtendedDecision × List DuplicateGroup :=
  if existingDecisions.contains group.id then st
  else if hasDecidedFile group st.1 then st
  else
    let result := evaluateGroup group rules files
    if result.needsManualReview then (st.1, st.2 ++ [group])
    else
      match result.decision with
      | some d => (st.1 ++ [d], st.2)
      | none => st

/-- `applyRulesToGroups` of the weighted variant (the
`existingDecisions : Set<string>` argument holds group ids). -/
def applyRulesToGroups (groups : List DuplicateGroup) (rules : DuplicateRules)
    (files : FilesMap) (existingDecisions : List String) : AutoDecisionResult :=
  let st := groups.foldl (stepGroup rules files existingDecisions) ([], [])
  { autoDecisions := st.1, manualGroups := st.2 }

end ADWeighted

/-! ## `auto-decider.ts`, ordered-rule variant

This is the second variant in the source file (ordered rule list with
tie detection and a destination directory), the one matched by
`types.ts`. -/

/-- `RuleName` of `types.ts`. -/
inductive RuleName
  | lossless
  | bitrate
  | metadata
deriving DecidableEq

/-- `RuleApplied` of `types.ts`: a rule name, `'tie'`, `'manual'` or
`null`. -/
inductive RuleApplied
  | rule (r : RuleName)
  | tie
  | manual
  | null
deriving DecidableEq

namespace ADOrdered

/-- `DuplicateRules` of `types.ts` (ordered-rule shape). -/
structure DuplicateRules where
  confidenceThreshold : JsRat
  ruleOrder : List RuleName
  destinationDir : String

/-- `ExtendedDecision` of `types.ts`. -/
structure ExtendedDecision where
  groupId : String
  keep : List String
  delete : List String
  notDuplicates : Bool
  decisionType : String
  ruleApplied : RuleApplied
  copyToDestination : Bool
deriving DecidableEq

/-- `getFileMetadata` (`files.get(path) ?? null`). -/
def getFileMetadata (path : String) (files : FilesMap) : Option AudioFileMetadata :=
  files.get? path

/-- `compareLossless`: lossless first. -/
def compareLossless (a b : AudioFileMetadata) : Int :=
  if a.lossless && !b.lossless then -1
  else if !a.lossless && b.lossless then 1
  else 0

/-- `compareBitrate`: higher bitrate first (`null` counts as 0). -/
def compareBitrate (a b : AudioFileMetadata) : Int :=
  let aBitrate := a.bitrate.getD 0
  let bBitrate := b.bitrate.getD 0
  if bBitrate < aBitrate then -1
  else if aBitrate < bBitrate then 1
  else 0

/-- `getMetadataCount`: tags satisfying `f !== null && f !== ''` among
`title, artist, album, genre, year`. -/
def getMetadataCount (file : AudioFileMetadata) : Nat :=
  (if ADWeighted.fieldFilledStr file.title then 1 else 0) +
  (if ADWeighted.fieldFilledStr file.artist then 1 else 0) +
  (if ADWeighted.fieldFilledStr file.album then 1 else 0) +
  (if ADWeighted.fieldFilledStr file.genre then 1 else 0) +
  (if file.year.isSome then 1 else 0)

/-- `compareMetadata`: more filled tags first. -/
def compareMetadata (a b : AudioFileMetadata) : Int :=
  let aCount := getMetadataCount a
  let bCount := getMetadataCount b
  if bCount < aCount then -1
  else if aCount < bCount then 1
  else 0

/-- The comparator selected by `applyRule`. -/
def compareFn (rule : RuleName) : AudioFileMetadata → AudioFileMetadata → Int :=
  match rule with
  | RuleName.lossless => compareLossless
  | RuleName.bitrate => compareBitrate
  | RuleName.metadata => compareMetadata

/-- `applyRule`: sort by the comparator (stable) and accept only a
strict winner over the runner-up. -/
def applyRule (rule : RuleName) (files : List AudioFileMetadata) :
    Option AudioFileMetadata × Bool :=
  let cmp := compareFn rule
  let sorted := sortJs (fun a b => cmp a b ≤ 0) files
  match sorted with
  | best :: second :: _ =>
    if cmp best second < 0 then (some best, true) else (none, false)
  | _ => (none, false)

/-- `isInDestination`. -/
def isInDestination (path destinationDir : String) : Bool :=
  Js.startsWithStr path (destinationDir ++ "/") || Js.startsWithStr path destinationDir

/-- Placeholder record used only for the unreachable empty-list case
of `findBestFile` (the caller guarantees at least two files). -/
def blankMeta : AudioFileMetadata :=
  { path := "", filename := "", size := 0, duration := none, bitrate := none,
    sampleRate := none, bitDepth := none, title := none, artist := none,
    album := none, year := none, trackNumber := none, genre := none,
    format := "", lossless := false, scannedAt := "" }

/-- `findBestFile`: first separating rule, else the destination-dir
member, else the first member; ties record `'tie'`. -/
def findBestFile (files : List AudioFileMetadata) (ruleOrder : List RuleName)
    (destinationDir : String) : AudioFileMetadata × RuleApplied :=
  match ruleOrder with
  | rule :: restRules =>
    match applyRule rule files with
    | (some winner, true) => (winner, RuleApplied.rule rule)
    | _ => findBestFile files restRules destinationDir
  | [] =>
    match files.find? (fun f => isInDestination f.path destinationDir) with
    | some inDest => (inDest, RuleApplied.tie)
    | none => (files.headD blankMeta, RuleApplied.tie)

/-- The evaluation outcome of one group. -/
structure EvaluationResult where
  decision : Option ExtendedDecision
  needsManualReview : Bool
  reason : String

/-- `evaluateGroup` of the ordered-rule variant. -/
def evaluateGroup (group : DuplicateGroup) (rules : DuplicateRules)
    (filesMap : FilesMap) : EvaluationResult :=
  let files := group.files.filterMap (fun path => getFileMetadata path filesMap)
  if files.length < 2 then
    { decision := none, needsManualReview := true
      reason := "Could not load metadata for all files" }
  else if JsRat.ofNat group.confidence < rules.confidenceThreshold then
    { decision := none, needsManualReview := true
      reason := "Confidence below threshold" }
  else
    let wr := findBestFile files rules.ruleOrder rules.destinationDir
    let keepPath := wr.1.path
    let deletePaths := group.files.filter (fun p => p ≠ keepPath)
    let needsCopy := !isInDestination keepPath rules.destinationDir
    { decision := some
        { groupId := group.id
          keep := [keepPath]
          delete := deletePaths
          notDuplicates := false
          decisionType := "auto"
          ruleApplied := wr.2
          copyToDestination := needsCopy }
      needsManualReview := false
      reason := "Keeping best file" }

/-- The result record of `applyRulesToGroups`. -/
structure AutoDecisionResult where
  autoDecisions : List ExtendedDecision
  manualGroups : List DuplicateGroup
deriving DecidableEq

/-- `group.files.some(f => decisions mention f)`. -/
def hasDecidedFile (group : DuplicateGroup) (decisions : List ExtendedDecision) : Bool :=
  group.files.any (fun f =>
    decisions.any (fun d => d.keep.contains f || d.delete.contains f))

/-- One iteration of the `applyRulesToGroups` loop over one group:
skip already-decided group ids, skip groups touching an
already-decided file, otherwise evaluate and record the outcome. -/
def stepGroup (rules : DuplicateRules) (files : FilesMap) (existingDecisions : List String)
    (st : List ExtendedDecision × List DuplicateGroup) (group : DuplicateGroup) :
    List ExtendedDecision × List DuplicateGroup :=
  if existingDecisions.contains group.id then st
  else if hasDecidedFile group st.1 then st
  else
    let result := evaluateGroup group rules files
    if result.needsManualReview then (st.1, st.2 ++ [group])
    else
      match result.decision with
      | some d => (st.1 ++ [d], st.2)
      | none => st

/-- `applyRulesToGroups` of the ordered-rule variant (the
`existingDecisions : Set<string>` argument holds group ids). -/
def applyRulesToGroups (groups : List DuplicateGroup) (rules : DuplicateRules)
    (files : FilesMap) (existingDecisions : List String) : AutoDecisionResult :=
  let st := groups.foldl (stepGroup rules files existingDecisions) ([], [])
  { autoDecisions := st.1, manualGroups := st.2 }

/-- Absence of keep/delete conflicts across a decision list. -/
def NoConflict (ds : List ExtendedDecision) : Prop :=
  ∀ d1 ∈ ds, ∀ d2 ∈ ds, ∀ f ∈ d1.keep, f ∉ d2.delete
end ADOrdered

/-! ## Conflict detector / resolver (the resolution script in `cache.ts`)

The script loads an accumulated decision list, detects every file that
is kept by one decision and deleted by another, unions the affected
files into connected components over the decision graph, and replaces
every decision touching a component by freshly synthesised decisions.
-/

namespace Resolver

/-- The decision shape consumed by the resolution script. -/
structure Decision where
  groupId : String
  keep : List String
  delete : List String
  notDuplicates : Bool
  decisionType : String
  ruleApplied : String
  copyToDestination : Bool
deriving DecidableEq

/-- A decision mentions a file when its keep or delete list holds it. -/
def mentions (d : Decision) (f : String) : Bool :=
  d.keep.contains f || d.delete.contains f

/-- Every file mentioned by any decision (with multiplicity). -/
def allFiles (decisions : List Decision) : List String :=
  decisions.flatMap (fun d => d.keep ++ d.delete)

/-- `extractArtist`: the regex `/\/Music\/([^/]+)\//` scanning for the
first occurrence of `/Music/` followed by a nonempty slash-free segment
and another slash; generic folders yield `null`. -/
def findMusicFolder : List Char → Option (List Char)
  | [] => none
  | c :: cs =>
    if "/Music/".toList.isPrefixOf (c :: cs) then
      let rest := (c :: cs).drop 7
      let seg := rest.takeWhile (· ≠ '/')
      if !seg.isEmpty && (rest.drop seg.length).head? = some '/' then some seg
      else findMusicFolder cs
    else findMusicFolder cs

def extractArtist (filePath : String) : Option String :=
  match findMusicFolder filePath.toList with
  | none => none
  | some seg =>
    let folder := String.mk seg
    if folder = "Music" || folder = "Unknown Artist" || folder = "Media.localized" then none
    else some folder

/-- `scoreFile`: the path-based quality heuristic (disk preference,
placeholder folders, album depth, format ranking, low-trust folders,
path-length penalty). -/
def scoreFile (filePath : String) : Int :=
  let s : Int := 0
  let s := if Js.startsWithStr filePath "/Users/aedison/Music/" then s + 100
    else if Js.startsWithStr filePath "/Users/aedison/Downloads/" then s + 50
    else if Js.startsWithStr filePath "/Volumes/" then s + 10
    else s
  let s := if Js.includesStr filePath "Unknown Artist" ||
      Js.includesStr filePath "Unknown Album" then s - 50 else s
  let parts := Js.splitOnChar '/' filePath
  let s := match parts.findIdx? (· == "Music") with
    | some musicIndex => if musicIndex + 3 < parts.length then s + 20 else s
    | none => s
  let s := if Js.endsWithStr filePath ".flac" then s + 200
    else if Js.endsWithStr filePath ".opus" then s + 150
    else if Js.endsWithStr filePath ".m4a" then s + 50
    else s
  let s := if Js.includesStr filePath "mega-unique" then s - 30 else s
  let s := if Js.includesStr filePath "Media.localized" then s - 20 else s
  s - (filePath.length / 20 : Nat)

/-- Every file sharing a decision with `file`: the expansion pushed by
one step of `findConnectedFiles` before the visited filter. -/
def reachList (decisions : List Decision) (file : String) : List String :=
  (decisions.filter (fun d => mentions d file)).flatMap (fun d => d.keep ++ d.delete)

/-- Inner loop of `findConnectedFiles` (a stack-driven search;
`toProcess.pop()` and `push` are both at the same end, so a head-based
stack is the same discipline, and the computed set is order
independent).  The fuel provably bounds the iteration count. -/
def connectedAux (decisions : List Decision) : Nat → List String → List String → List String
  | 0, connected, _ => connected
  | _ + 1, connected, [] => connected
  | fuel + 1, connected, file :: rest =>
    if connected.contains file then connectedAux decisions fuel connected rest
    else
      let connected' := connected ++ [file]
      let pushed := (reachList decisions file).filter (fun f => !connected'.contains f)
      connectedAux decisions fuel connected' (pushed ++ rest)

/-- Fuel sufficient for `connectedAux` (generous overcount of the
decreasing measure used in the proofs). -/
def connectedFuel (decisions : List Decision) (queue : List String) : Nat :=
  ((allFiles decisions).length + queue.length + 1) * ((allFiles decisions).length + 2) +
    queue.length + 1

/-- Decreasing measure of the connected-search loop state. -/
def connectedMeasure (decisions : List Decision) (connected queue : List String) : Nat :=
  (((allFiles decisions).toFinset ∪ queue.toFinset) \ connected.toFinset).card *
    ((allFiles decisions).length + 2) + queue.length

/-- `findConnectedFiles` of the resolution script. -/
def findConnectedFiles (startFile : String) (decisions : List Decision) : List String :=
  connectedAux decisions (connectedFuel decisions [startFile]) [] [startFile]

/-- The loop grouping conflict seeds into connected components,
skipping seeds already absorbed by an earlier component. -/
def componentsAux (decisions : List Decision) :
    List String → List (List String) → List String → List (List String)
  | _, acc, [] => acc
  | processed, acc, seed :: rest =>
    if processed.contains seed then componentsAux decisions processed acc rest
    else
      let comp := findConnectedFiles seed decisions
      componentsAux decisions (processed ++ comp) (acc ++ [comp]) rest

/-- First-occurrence deduplication (JavaScript `Map`/`Set` insertion
order). -/
def firstDedupAux : List String → List String → List String
  | acc, [] => acc
  | acc, x :: xs =>
    if acc.contains x then firstDedupAux acc xs else firstDedupAux (acc ++ [x]) xs

/-- The conflict detector: every file kept by some decision and
deleted by some decision, in first-keep order. -/
def detectConflicts (decisions : List Decision) : List String :=
  (firstDedupAux [] (decisions.flatMap (·.keep))).filter
    (fun f => decisions.any (fun d => d.delete.contains f))

/-- The groupIds of every decision mentioning a member of the
component (the blast radius removed from the decision list). -/
def involvedGroupsOf (decisions : List Decision) (comp : List String) : List String :=
  (decisions.filter (fun d => comp.any (fun f => mentions d f))).map (·.groupId)

/-- One synthesised resolution for a connected component. -/
structure Resolution where
  keep : List String
  delete : List String
  reason : String
  involvedGroups : List String
  notDuplicates : Bool

/-- Sort file paths by `scoreFile` descending (stable), as
`scored.sort((a, b) => b.score - a.score)`. -/
def sortByScoreDesc (files : List String) : List String :=
  sortJs (fun a b => scoreFile b ≤ scoreFile a) files

/-- `resolveComponent`: multiple distinct artists keep the best file
per artist, a single (or unknown) artist keeps the single best file. -/
def resolveComponent (decisions : List Decision) (comp : List String) : Resolution :=
  let artists := firstDedupAux [] (comp.filterMap extractArtist)
  let involved := involvedGroupsOf decisions comp
  if artists.length > 1 then
    let cells := artists.map (fun a => comp.filter (fun f => extractArtist f = some a))
    let noArtist := comp.filter (fun f => extractArtist f = none)
    let keepers := cells.filterMap (fun cell => (sortByScoreDesc cell).head?)
    let deleters := cells.flatMap (fun cell => (sortByScoreDesc cell).tail) ++ noArtist
    { keep := keepers
      delete := deleters
      reason := "Different artists detected: " ++ String.intercalate ", " artists ++
        ". Keeping best from each."
      involvedGroups := involved
      notDuplicates := keepers.length > 1 }
  else
    let sorted := sortByScoreDesc comp
    { keep := sorted.take 1
      delete := sorted.drop 1
      reason := "Score"
      involvedGroups := involved
      notDuplicates := false }

/-- The replacement decisions synthesised from the resolutions, with
`resolved-*` group ids. -/
def buildResolvedDecisions (resolutions : List Resolution) : List Decision :=
  resolutions.enum.flatMap (fun ir : Nat × Resolution =>
    let i := ir.1
    let r := ir.2
    if r.notDuplicates then
      (r.keep.enum.map (fun jk : Nat × String =>
        { groupId := "resolved-" ++ toString (i + 1) ++ "-keep-" ++ toString (jk.1 + 1)
          keep := [jk.2]
          delete := []
          notDuplicates := true
          decisionType := "auto"
          ruleApplied := "different-artists"
          copyToDestination := false : Decision })) ++
      (if r.delete.isEmpty then []
       else [{ groupId := "resolved-" ++ toString (i + 1) ++ "-delete"
               keep := []
               delete := r.delete
               notDuplicates := false
               decisionType := "auto"
               ruleApplied := "lower-quality-duplicate"
               copyToDestination := false : Decision }])
    else
      [{ groupId := "resolved-" ++ toString (i + 1)
         keep := r.keep
         delete := r.delete
         notDuplicates := false
         decisionType := "auto"
         ruleApplied := "conflict-resolution"
         copyToDestination := false : Decision }])

/-- The resolution pass given the conflict seed list: build the
connected components, resolve each, drop every involved decision and
append the synthesised replacements. -/
def resolveWith (decisions : List Decision) (seeds : List String) : List Decision :=
  let comps := componentsAux decisions [] [] seeds
  let resolutions := comps.map (resolveComponent decisions)
  let conflictedGroupIds := resolutions.flatMap (·.involvedGroups)
  (decisions.filter (fun d => !conflictedGroupIds.contains d.groupId)) ++
    buildResolvedDecisions resolutions

/-- The full conflict detection + resolution pass. -/
def resolve (decisions : List Decision) : List Decision :=
  resolveWith decisions (detectConflicts decisions)

end Resolver

/-! ## `index.ts`: `loadScannedFiles`

The NDJSON metadata store loader.  `JSON.parse` is an external
collaborator, so the loader is parameterised by a per-line parser; a
`none` result models the exception thrown on an unparseable line.  The
source wraps the *whole* loop in one `try`, so a throw aborts the loop
and the partially filled map is returned. -/

namespace Loader

/-- `files.set(metadata.path, metadata)`: replace in place or append. -/
def mapSet (files : FilesMap) (path : String) (metadata : AudioFileMetadata) : FilesMap :=
  if files.any (fun e => e.1 = path) then
    files.map (fun e => if e.1 = path then (e.1, metadata) else e)
  else files ++ [(path, metadata)]

/-- The `for (const line of lines)` loop under the single `try`:
a parse failure aborts and returns the entries loaded so far. -/
def loadLoop (parse : String → Option AudioFileMetadata) :
    List String → FilesMap → FilesMap
  | [], files => files
  | line :: rest, files =>
    match parse line with
    | none => files
    | some metadata => loadLoop parse rest (mapSet files metadata.path metadata)

/-- `loadScannedFiles` on given file contents: split on newlines, drop
empty lines (`filter(Boolean)`), then run the loop. -/
def loadScannedFiles (parse : String → Option AudioFileMetadata) (data : String) : FilesMap :=
  let lines := (Js.splitOnChar '\n' data).filter (· ≠ "")
  loadLoop parse lines []

end Loader

/-! ## Specification-side definitions

`specGroupConfidence` is written from the words of the specification
("the rounded mean of compareFiles scores over every intra-group
pair"), to be compared against the confidence computed by
`findDuplicates`. -/

namespace Dup

/-- Rounded arithmetic mean of the `compareFiles` scores over every
unordered pair of the given member records (all pairs, not only the
pairs at or above the threshold). -/
def specGroupConfidence (records : List AudioFileMetadata) (config : Config) : Nat :=
  let scores := (listPairs records).map (fun ab => (compareFiles ab.1 ab.2 config).score)
  if scores.length = 0 then 0 else roundRatio scores.sum scores.length

end Dup

/-! ## Concrete fixtures for witnesses and counterexamples -/

namespace Fixture

/-- Shorthand metadata record constructor. -/
def mkMeta (p fn : String) (dur : Option JsRat) (ar ti al : Option String)
    (br : Option JsRat) (lossless : Bool := false) : AudioFileMetadata :=
  { path := p, filename := fn, size := 0, duration := dur, bitrate := br,
    sampleRate := none, bitDepth := none, title := ti, artist := ar, album := al,
    year := none, trackNumber := none, genre := none, format := "mp3",
    lossless := lossless, scannedAt := "" }

/-- The default configuration (tolerance 5 s, threshold 40). -/
def cfg : Config :=
  { scanPaths := [], excludePatterns := [], durationToleranceSeconds := 5,
    duplicateScoreThreshold := 40, supportedExtensions := [] }

/-- Two fully identical recordings in different root folders: every
signal fires, so the pair scores 40+30+20+10+10 = 110. -/
def twinA : AudioFileMetadata :=
  mkMeta "/a/x.mp3" "x.mp3" (some 100) (some "ar") (some "ti") (some "al") (some 128)

def twinB : AudioFileMetadata :=
  mkMeta "/b/x.mp3" "x.mp3" (some 100) (some "ar") (some "ti") (some "al") (some 320)

def twinMap : FilesMap := [("/a/x.mp3", twinA), ("/b/x.mp3", twinB)]

/-- Two records with identical but *empty* artist tags (non-null), to
probe the empty-string behaviour of the artist+title signal. -/
def emptyArtistA : AudioFileMetadata :=
  mkMeta "/a/f1.mp3" "f1.mp3" (some 100) (some "") (some "t") (some "al") none

def emptyArtistB : AudioFileMetadata :=
  mkMeta "/b/f2.mp3" "f2.mp3" (some 100) (some "") (some "t") (some "al") none

/-- A three-record chain: A-B and B-C match by duration (within the
5 s tolerance) while A-C does not; no other signal connects A and C. -/
def chainA : AudioFileMetadata :=
  mkMeta "/a/a1.mp3" "a1.mp3" (some 100) (some "x") (some "t1") none none

def chainB : AudioFileMetadata :=
  mkMeta "/b/b1.mp3" "b1.mp3" (some 103) (some "y") (some "t2") none none

def chainC : AudioFileMetadata :=
  mkMeta "/c/c1.mp3" "c1.mp3" (some 106) (some "z") (some "t3") none none

def chainMap : FilesMap :=
  [("/a/a1.mp3", chainA), ("/b/b1.mp3", chainB), ("/c/c1.mp3", chainC)]

/-- Ordered-rule configuration used by the auto-decider fixtures. -/
def rulesO : ADOrdered.DuplicateRules :=
  { confidenceThreshold := 75
    ruleOrder := [RuleName.lossless, RuleName.bitrate, RuleName.metadata]
    destinationDir := "/dest" }

/-- Weighted configuration used by the auto-decider fixtures. -/
def rulesW : ADWeighted.DuplicateRules :=
  { confidenceThreshold := 75
    scoreDifferenceThreshold := 10
    weights := { lossless := 40, bitrate := 30, pathPriority := 20, metadataQuality := 10 }
    pathPriority := [] }

/-- A duplicate group over the twin records. -/
def twinGroup : DuplicateGroup :=
  { id := "group-1", confidence := 110, files := ["/a/x.mp3", "/b/x.mp3"],
    matchReasons := ["duration"], suggestedKeep := some "/b/x.mp3" }

/-- A pre-existing decision that keeps `/a/x.mp3` under group id
`gX` - a group id different from `twinGroup`. -/
def preDecision : ADOrdered.ExtendedDecision :=
  { groupId := "gX", keep := ["/a/x.mp3"], delete := ["/old/y.mp3"],
    notDuplicates := false, decisionType := "manual", ruleApplied := RuleApplied.manual,
    copyToDestination := false }

/-- A low-confidence group over the twin records (goes to manual
review under `rulesO`). -/
def lowGroup : DuplicateGroup :=
  { id := "g1", confidence := 10, files := ["/a/x.mp3", "/b/x.mp3"],
    matchReasons := [], suggestedKeep := none }

/-- The group that `findDuplicates` produces on `twinMap`. -/
def twinGroupOut : DuplicateGroup :=
  { id := "group-1", confidence := 110, files := ["/a/x.mp3", "/b/x.mp3"],
    matchReasons := ["duration", "artist+title", "filename", "album", "different-location"],
    suggestedKeep := some "/b/x.mp3" }

/-- The decision the ordered-rule `evaluateGroup` makes on
`twinGroupOut` under `rulesO` (bitrate separates: 320 beats 128). -/
def decO : ADOrdered.ExtendedDecision :=
  { groupId := "group-1", keep := ["/b/x.mp3"], delete := ["/a/x.mp3"],
    notDuplicates := false, decisionType := "auto",
    ruleApplied := RuleApplied.rule RuleName.bitrate, copyToDestination := true }

/-- The decision the weighted `evaluateGroup` makes on `twinGroupOut`
under `rulesW`. -/
def decW : ADWeighted.ExtendedDecision :=
  { groupId := "group-1", keep := ["/b/x.mp3"], delete := ["/a/x.mp3"],
    notDuplicates := false, decisionType := "auto", ruleApplied := "weighted-score" }

/-- Toy line parser standing in for `JSON.parse` in the loader claims:
the line `bad` is unparseable, every other line parses to a record
keyed by the line itself. -/
def parseToy (line : String) : Option AudioFileMetadata :=
  if line = "bad" then none
  else some (mkMeta line line none none none none none)

end Fixture

/-! ## Basic lemmas about the rational model and the stable sort -/

namespace JsRat

theorem le_unfold (x y : JsRat) : (x ≤ y) = (x.num * y.den ≤ y.num * x.den) := rfl

theorem lt_unfold (x y : JsRat) : (x < y) = (x.num * y.den < y.num * x.den) := rfl

theorem sub_self_num (x : JsRat) : (x - x).num = 0 := by
  show x.num * x.den - x.num * x.den = 0
  omega

theorem abs_sub_self_le {t : JsRat} (h : (0 : JsRat) ≤ t) (x : JsRat) :
    (x - x).abs ≤ t := by
  have hnum : (0 : Int) ≤ t.num := by
    have h2 : ((0 : JsRat)).num * t.den ≤ t.num * ((0 : JsRat)).den := h
    have e1 : ((0 : JsRat)).num = 0 := rfl
    have e2 : ((0 : JsRat)).den = 1 := rfl
    rw [e1, e2] at h2
    simpa using h2
  show ((x - x).abs.num) * t.den ≤ t.num * (x - x).abs.den
  rw [show (x - x).abs.num = |(x - x).num| from rfl, sub_self_num]
  simp only [abs_zero, zero_mul]
  exact mul_nonneg hnum (le_of_lt (x - x).abs.den_pos)

theorem abs_sub_comm_le (x y t : JsRat) :
    ((x - y).abs ≤ t) ↔ ((y - x).abs ≤ t) := by
  show |x.num * y.den - y.num * x.den| * t.den ≤ t.num * (x.den * y.den) ↔
       |y.num * x.den - x.num * y.den| * t.den ≤ t.num * (y.den * x.den)
  rw [abs_sub_comm, mul_comm x.den y.den]

end JsRat

theorem insertSorted_perm (cmpLE : α → α → Bool) (x : α) (l : List α) :
    (insertSorted cmpLE x l).Perm (x :: l) := by
  induction l with
  | nil => simp [insertSorted]
  | cons y ys ih =>
    unfold insertSorted
    by_cases h : cmpLE x y = true
    · simp [h]
    · simp only [h]
      simp only [Bool.false_eq_true, if_false]
      exact (ih.cons y).trans (List.Perm.swap x y ys)

theorem sortJs_perm (cmpLE : α → α → Bool) (l : List α) :
    (sortJs cmpLE l).Perm l := by
  induction l with
  | nil => simp [sortJs]
  | cons x xs ih =>
    exact (insertSorted_perm cmpLE x (sortJs cmpLE xs)).trans (ih.cons x)

theorem sortJs_mem (cmpLE : α → α → Bool) (l : List α) (x : α) :
    x ∈ sortJs cmpLE l ↔ x ∈ l :=
  (sortJs_perm cmpLE l).mem_iff

theorem sortJs_nodup (cmpLE : α → α → Bool) (l : List α) (h : l.Nodup) :
    (sortJs cmpLE l).Nodup :=
  ((sortJs_perm cmpLE l).nodup_iff).mpr h

theorem sortJs_head_mem (cmpLE : α → α → Bool) (l : List α) (x : α) (xs : List α)
    (h : sortJs cmpLE l = x :: xs) : x ∈ l := by
  have := sortJs_mem cmpLE l x
  rw [h] at this
  exact this.mp (by simp)

/-! ## Lemmas about the pairwise matcher -/

namespace Dup

/-- Closed form of `compareFiles`: independent additive signals with
the reason strings appended in signal order. -/
theorem compareFiles_eq (a b : AudioFileMetadata) (config : Config) :
    compareFiles a b config =
    { score :=
        (if checkDurationMatch a b config.durationToleranceSeconds then 40 else 0) +
        (if checkArtistTitleMatch a b then 30 else 0) +
        (if checkFilenameMatch a b then 20 else 0) +
        (if checkAlbumMatch a b then 10 else 0) +
        (if checkDifferentLocation a b then 10 else 0)
      reasons :=
        (if checkDurationMatch a b config.durationToleranceSeconds then ["duration"] else []) ++
        (if checkArtistTitleMatch a b then ["artist+title"] else []) ++
        (if checkFilenameMatch a b then ["filename"] else []) ++
        (if checkAlbumMatch a b then ["album"] else []) ++
        (if checkDifferentLocation a b then ["different-location"] else []) } := by
  unfold compareFiles
  split_ifs <;> rfl

/-- Every pairwise score is at most 110 = 40+30+20+10+10. -/
theorem compareFiles_score_le (a b : AudioFileMetadata) (config : Config) :
    (compareFiles a b config).score ≤ 110 := by
  rw [compareFiles_eq]
  dsimp only
  split_ifs <;> omega

/-- Symmetry of the Levenshtein worker at every fuel level. -/
theorem levAux_symm (fuel : Nat) : ∀ xs ys : List Char,
    levAux fuel xs ys = levAux fuel ys xs := by
  induction fuel with
  | zero =>
    intro xs ys
    cases xs <;> cases ys <;> rfl
  | succ f ih =>
    intro xs ys
    cases xs with
    | nil => cases ys <;> rfl
    | cons x xs' =>
      cases ys with
      | nil => rfl
      | cons y ys' =>
        show (if x = y then levAux f xs' ys'
              else 1 + min (levAux f xs' (y :: ys'))
                (min (levAux f (x :: xs') ys') (levAux f xs' ys'))) =
             (if y = x then levAux f ys' xs'
              else 1 + min (levAux f ys' (x :: xs'))
                (min (levAux f (y :: ys') xs') (levAux f ys' xs')))
        by_cases h : x = y
        · subst h
          rw [if_pos rfl, if_pos rfl, ih]
        · rw [if_neg h, if_neg (Ne.symm h), ih ys' (x :: xs'), ih (y :: ys') xs',
            ih ys' xs', Nat.min_left_comm]

theorem levenshtein_symm (xs ys : List Char) :
    levenshtein xs ys = levenshtein ys xs := by
  unfold levenshtein
  rw [Nat.add_comm, levAux_symm]

/-- Boolean equality on strings is symmetric. -/
theorem strBeq_symm (x y : String) : (x == y) = (y == x) := by
  by_cases h : x = y
  · subst h; rfl
  · have h' : ¬(y = x) := fun hc => h hc.symm
    simp [beq_iff_eq, h, h']

theorem strBne_symm (x y : String) : (x != y) = (y != x) := by
  simp only [bne]
  rw [strBeq_symm]

theorem checkDurationMatch_symm (a b : AudioFileMetadata) (tol : JsRat) :
    checkDurationMatch a b tol = checkDurationMatch b a tol := by
  unfold checkDurationMatch
  cases a.duration <;> cases b.duration <;> try rfl
  next da db =>
    simp only [decide_eq_decide]
    exact JsRat.abs_sub_comm_le da db tol

theorem checkArtistTitleMatch_symm (a b : AudioFileMetadata) :
    checkArtistTitleMatch a b = checkArtistTitleMatch b a := by
  unfold checkArtistTitleMatch
  cases h1 : Js.strTruthy a.artist <;> cases h2 : Js.strTruthy b.artist <;>
    cases h3 : Js.strTruthy a.title <;> cases h4 : Js.strTruthy b.title <;>
    simp [h1, h2, h3, h4,
      strBeq_symm (Js.normalizeString (a.artist.getD ""))
        (Js.normalizeString (b.artist.getD "")),
      strBeq_symm (Js.normalizeString (a.title.getD ""))
        (Js.normalizeString (b.title.getD ""))]

theorem checkAlbumMatch_symm (a b : AudioFileMetadata) :
    checkAlbumMatch a b = checkAlbumMatch b a := by
  unfold checkAlbumMatch
  cases h1 : Js.strTruthy a.album <;> cases h2 : Js.strTruthy b.album <;>
    simp [h1, h2,
      strBeq_symm (Js.normalizeString (a.album.getD ""))
        (Js.normalizeString (b.album.getD ""))]

theorem checkDifferentLocation_symm (a b : AudioFileMetadata) :
    checkDifferentLocation a b = checkDifferentLocation b a := by
  unfold checkDifferentLocation
  exact strBne_symm _ _

theorem checkFilenameMatch_symm (a b : AudioFileMetadata) :
    checkFilenameMatch a b = checkFilenameMatch b a := by
  simp only [checkFilenameMatch]
  rw [strBeq_symm (Js.normalizeString ((parseFilenameForComparison a.filename).artist.getD ""))
      (Js.normalizeString ((parseFilenameForComparison b.filename).artist.getD "")),
    strBeq_symm (Js.normalizeString ((parseFilenameForComparison a.filename).title.getD ""))
      (Js.normalizeString ((parseFilenameForComparison b.filename).title.getD "")),
    strBeq_symm (normalizeFilename a.filename) (normalizeFilename b.filename),
    Nat.max_comm (normalizeFilename a.filename).length (normalizeFilename b.filename).length,
    levenshtein_symm (normalizeFilename a.filename).toList (normalizeFilename b.filename).toList]
  cases hta : Js.strTruthy (parseFilenameForComparison a.filename).artist <;>
    cases htb : Js.strTruthy (parseFilenameForComparison b.filename).artist <;>
    cases htc : Js.strTruthy (parseFilenameForComparison a.filename).title <;>
    cases htd : Js.strTruthy (parseFilenameForComparison b.filename).title <;>
    simp [hta, htb, htc, htd, Bool.and_comm, Bool.and_left_comm, Bool.and_assoc]

/-- Full symmetry of `compareFiles` (same score, same reasons). -/
theorem compareFiles_symm (a b : AudioFileMetadata) (config : Config) :
    compareFiles a b config = compareFiles b a config := by
  rw [compareFiles_eq, compareFiles_eq,
    checkDurationMatch_symm, checkArtistTitleMatch_symm, checkFilenameMatch_symm,
    checkAlbumMatch_symm, checkDifferentLocation_symm]

end Dup

/-! ## Confidence bound lemmas -/

namespace Dup

theorem roundRatio_le {total n bound : Nat} (hn : 0 < n) (h : total ≤ bound * n) :
    roundRatio total n ≤ bound := by
  unfold roundRatio
  have hlt : 2 * total + n < (bound + 1) * (2 * n) := by nlinarith
  have := (Nat.div_lt_iff_lt_mul (by omega : 0 < 2 * n)).mpr hlt
  omega

theorem calculateGroupConfidence_le (groupFiles : List String) (files : FilesMap)
    (config : Config) : calculateGroupConfidence groupFiles files config ≤ 110 := by
  unfold calculateGroupConfidence
  set scores := (listPairs groupFiles).filterMap
    (fun pq : String × String =>
      match files.get? pq.1, files.get? pq.2 with
      | some a, some b => some (compareFiles a b config).score
      | _, _ => none) with hscores
  by_cases h0 : scores.length = 0
  · simp [h0]
  · rw [if_neg h0]
    refine roundRatio_le (by omega) ?_
    have hb : ∀ x ∈ scores, x ≤ 110 := by
      intro x hx
      rw [hscores] at hx
      obtain ⟨pq, _, hpq⟩ := List.mem_filterMap.mp hx
      revert hpq
      cases files.get? pq.1 <;> cases files.get? pq.2 <;> intro hpq <;>
        simp only [Option.some.injEq, reduceCtorEq] at hpq
      next a b =>
        subst hpq
        exact compareFiles_score_le a b config
    calc scores.sum ≤ scores.length * 110 := by
          simpa using List.sum_le_card_nsmul scores 110 hb
      _ = 110 * scores.length := by ring

/-- Membership in `findDuplicates` output comes from a packaged
cluster. -/
theorem findDuplicates_mem {files : FilesMap} {config : Config} {g : DuplicateGroup}
    (hg : g ∈ findDuplicates files config) :
    ∃ c ∈ buildTransitiveClusters (buildMatches files.values config),
      g.files = c ∧
      g.confidence = calculateGroupConfidence c files config ∧
      g.matchReasons = collectMatchReasons c files config ∧
      g.suggestedKeep = selectBestFile c files := by
  unfold findDuplicates at hg
  rw [sortJs_mem] at hg
  obtain ⟨ic, hic, rfl⟩ := List.mem_map.mp hg
  exact ⟨ic.2, by simpa using List.snd_mem_of_mem_enum hic, rfl, rfl, rfl, rfl⟩

end Dup

/-! ## Claim C8 -/

/-- C8: pairwise matching is symmetric — for every two records and
every configuration, `compareFiles(A, B)` returns the same score and
the same reasons as `compareFiles(B, A)`. -/
theorem c8_compareFiles_symmetric (a b : AudioFileMetadata) (config : Config) :
    Dup.compareFiles a b config = Dup.compareFiles b a config :=
  Dup.compareFiles_symm a b config

/-! ## Claim C5 -/

/-- C5 (counterexample): for two fully identical recordings stored in
different root folders, `findDuplicates` produces a group whose
confidence is 110, strictly above 100 — so confidence is not bounded
by 100 as claimed. -/
theorem c5_counterexample :
    ∃ g ∈ Dup.findDuplicates Fixture.twinMap Fixture.cfg,
      g.confidence = 110 ∧ 100 < g.confidence := by decide

/-- C5 (amended): every group produced by `findDuplicates` has a
confidence between 0 and 110 inclusive (110 = 40+30+20+10+10 being the
maximal pairwise score). -/
theorem c5_confidence_bounds (files : FilesMap) (config : Config)
    (g : DuplicateGroup) (hg : g ∈ Dup.findDuplicates files config) :
    0 ≤ g.confidence ∧ g.confidence ≤ 110 := by
  obtain ⟨c, _, _, hconf, _, _⟩ := Dup.findDuplicates_mem hg
  exact ⟨Nat.zero_le _, hconf ▸ Dup.calculateGroupConfidence_le c files config⟩

/-- C5 (witness): the amended bound at the concrete twin store. -/
theorem c5_confidence_bounds_witness :
    0 ≤ Fixture.twinGroupOut.confidence ∧ Fixture.twinGroupOut.confidence ≤ 110 := by
  have hg : Fixture.twinGroupOut ∈
      Dup.findDuplicates Fixture.twinMap Fixture.cfg := by decide
  exact c5_confidence_bounds Fixture.twinMap Fixture.cfg _ hg

/-! ## Claim C7 -/

/-- C7 (counterexample): two records with identical non-null duration,
artist, title and album, where the artist tag is the empty string,
score only 60 and their reasons do not include `artist+title` — the
claim fails for non-null but empty tags because empty strings are
falsy. -/
theorem c7_counterexample :
    Fixture.emptyArtistA.artist = some "" ∧ Fixture.emptyArtistB.artist = some "" ∧
    Fixture.emptyArtistA.title = Fixture.emptyArtistB.title ∧
    Fixture.emptyArtistA.title ≠ none ∧
    Fixture.emptyArtistA.album = Fixture.emptyArtistB.album ∧
    Fixture.emptyArtistA.album ≠ none ∧
    Fixture.emptyArtistA.duration = Fixture.emptyArtistB.duration ∧
    Fixture.emptyArtistA.duration ≠ none ∧
    (0 : JsRat) ≤ Fixture.cfg.durationToleranceSeconds ∧
    (Dup.compareFiles Fixture.emptyArtistA Fixture.emptyArtistB Fixture.cfg).score = 60 ∧
    ¬(80 ≤ (Dup.compareFiles Fixture.emptyArtistA Fixture.emptyArtistB Fixture.cfg).score) ∧
    "artist+title" ∉
      (Dup.compareFiles Fixture.emptyArtistA Fixture.emptyArtistB Fixture.cfg).reasons := by
  decide

/-- C7 (amended): for records with identical non-null *and nonempty*
artist, title and album and identical non-null duration, under any
non-negative tolerance, the score is at least 80 and the reasons
include duration, artist+title and album. -/
theorem c7_identical_tags_score (a b : AudioFileMetadata) (config : Config)
    (d : JsRat) (ar ti al : String)
    (hda : a.duration = some d) (hdb : b.duration = some d)
    (hara : a.artist = some ar) (harb : b.artist = some ar) (har : ar ≠ "")
    (htia : a.title = some ti) (htib : b.title = some ti) (hti : ti ≠ "")
    (hala : a.album = some al) (halb : b.album = some al) (hal : al ≠ "")
    (htol : (0 : JsRat) ≤ config.durationToleranceSeconds) :
    80 ≤ (Dup.compareFiles a b config).score ∧
    "duration" ∈ (Dup.compareFiles a b config).reasons ∧
    "artist+title" ∈ (Dup.compareFiles a b config).reasons ∧
    "album" ∈ (Dup.compareFiles a b config).reasons := by
  have hd : Dup.checkDurationMatch a b config.durationToleranceSeconds = true := by
    unfold Dup.checkDurationMatch
    rw [hda, hdb]
    exact decide_eq_true (JsRat.abs_sub_self_le htol d)
  have hat : Dup.checkArtistTitleMatch a b = true := by
    unfold Dup.checkArtistTitleMatch
    rw [hara, harb, htia, htib]
    simp [Js.strTruthy, bne_iff_ne, har, hti]
  have halb2 : Dup.checkAlbumMatch a b = true := by
    unfold Dup.checkAlbumMatch
    rw [hala, halb]
    simp [Js.strTruthy, bne_iff_ne, hal]
  rw [Dup.compareFiles_eq]
  refine ⟨?_, ?_, ?_, ?_⟩ <;>
    simp only [hd, hat, halb2, if_pos, if_true] <;>
    [skip; simp; simp; simp]
  split_ifs <;> omega

/-- C7 (witness): the amended statement at the concrete twin records. -/
theorem c7_identical_tags_score_witness :
    80 ≤ (Dup.compareFiles Fixture.twinA Fixture.twinB Fixture.cfg).score ∧
    "duration" ∈ (Dup.compareFiles Fixture.twinA Fixture.twinB Fixture.cfg).reasons ∧
    "artist+title" ∈ (Dup.compareFiles Fixture.twinA Fixture.twinB Fixture.cfg).reasons ∧
    "album" ∈ (Dup.compareFiles Fixture.twinA Fixture.twinB Fixture.cfg).reasons :=
  c7_identical_tags_score Fixture.twinA Fixture.twinB Fixture.cfg 100 "ar" "ti" "al"
    rfl rfl rfl rfl (by decide) rfl rfl (by decide) rfl rfl (by decide) (by decide)

/-! ## Lemmas about the metadata store -/

theorem FilesMap.get?_spec {files : FilesMap} {p : String} {m : AudioFileMetadata}
    (hwf : FilesMap.WF files) (h : files.get? p = some m) : m.path = p := by
  cases hfind : List.find? (fun e => e.1 = p) files with
  | none => simp [FilesMap.get?, hfind] at h
  | some e =>
    simp only [FilesMap.get?, hfind] at h
    simp at h
    have hmem := List.mem_of_find?_eq_some hfind
    have hpred := List.find?_some hfind
    simp only [decide_eq_true_eq] at hpred
    rw [← h, hwf e hmem, hpred]

/-! ## Lemmas about the auto-decider variants -/

namespace ADOrdered

theorem applyRule_winner_mem {rule : RuleName} {files : List AudioFileMetadata}
    {w : AudioFileMetadata} {b : Bool} (h : applyRule rule files = (some w, b)) :
    w ∈ files := by
  simp only [applyRule] at h
  cases hs : sortJs (fun a b => compareFn rule a b ≤ 0) files with
  | nil => rw [hs] at h; simp at h
  | cons best rest =>
    cases rest with
    | nil => rw [hs] at h; simp at h
    | cons second tl =>
      rw [hs] at h
      dsimp only at h
      by_cases hc : compareFn rule best second < 0
      · rw [if_pos hc] at h
        simp only [Prod.mk.injEq, Option.some.injEq] at h
        rw [← h.1]
        exact sortJs_head_mem _ files best (second :: tl) hs
      · rw [if_neg hc] at h
        simp at h

theorem findBestFile_mem {files : List AudioFileMetadata} (hne : files ≠ [])
    (ruleOrder : List RuleName) (destinationDir : String) :
    (findBestFile files ruleOrder destinationDir).1 ∈ files := by
  induction ruleOrder with
  | nil =>
    unfold findBestFile
    cases hf : files.find? (fun f => isInDestination f.path destinationDir) with
    | some inDest =>
      simpa using List.mem_of_find?_eq_some hf
    | none =>
      simp only
      cases files with
      | nil => exact absurd rfl hne
      | cons f fs => simp [List.headD]
  | cons rule restRules ih =>
    unfold findBestFile
    cases happ : applyRule rule files with
    | mk ow applied =>
      cases ow with
      | some w =>
        cases applied with
        | true => simpa using applyRule_winner_mem happ
        | false => simpa using ih
      | none => simpa using ih

/-- Well-formedness of every decision the ordered-rule `evaluateGroup`
produces: one keep path that is a group member, and the delete list is
exactly the rest of the group file list. -/
theorem evaluateGroup_decision_spec {group : DuplicateGroup} {rules : DuplicateRules}
    {filesMap : FilesMap} {d : ExtendedDecision} (hwf : FilesMap.WF filesMap)
    (h : (evaluateGroup group rules filesMap).decision = some d) :
    ∃ k, d.keep = [k] ∧ k ∈ group.files ∧
      d.delete = group.files.filter (fun p => p ≠ k) := by
  unfold evaluateGroup at h
  by_cases h2 : (group.files.filterMap (fun path => getFileMetadata path filesMap)).length < 2
  · rw [if_pos h2] at h
    simp at h
  rw [if_neg h2] at h
  by_cases h3 : JsRat.ofNat group.confidence < rules.confidenceThreshold
  · rw [if_pos h3] at h
    simp at h
  rw [if_neg h3] at h
  simp only [Option.some.injEq] at h
  subst h
  simp only
  refine ⟨_, rfl, ?_, rfl⟩
  have hne : group.files.filterMap (fun path => getFileMetadata path filesMap) ≠ [] := by
    intro hnil
    rw [hnil] at h2
    exact h2 (by simp)
  have hw := findBestFile_mem hne rules.ruleOrder rules.destinationDir
  obtain ⟨p, hp, hget⟩ := List.mem_filterMap.mp hw
  have := FilesMap.get?_spec hwf hget
  rw [this]
  exact hp

/-- When a group does not require manual review, `evaluateGroup`
always returns a decision. -/
theorem evaluateGroup_total {group : DuplicateGroup} {rules : DuplicateRules}
    {filesMap : FilesMap}
    (h : (evaluateGroup group rules filesMap).needsManualReview = false) :
    ∃ d, (evaluateGroup group rules filesMap).decision = some d := by
  unfold evaluateGroup at h ⊢
  by_cases h2 : (group.files.filterMap (fun path => getFileMetadata path filesMap)).length < 2
  · rw [if_pos h2] at h
    simp at h
  rw [if_neg h2] at h ⊢
  by_cases h3 : JsRat.ofNat group.confidence < rules.confidenceThreshold
  · rw [if_pos h3] at h
    simp at h
  rw [if_neg h3] at h ⊢
  exact ⟨_, rfl⟩

theorem hasDecidedFile_eq_false_iff (group : DuplicateGroup)
    (ds : List ExtendedDecision) :
    hasDecidedFile group ds = false ↔
      ∀ f ∈ group.files, ∀ d ∈ ds, f ∉ d.keep ∧ f ∉ d.delete := by
  unfold hasDecidedFile
  simp [List.any_eq_false, not_or]

theorem stepGroup_noConflict {rules : DuplicateRules} {files : FilesMap}
    {existing : List String} {st : List ExtendedDecision × List DuplicateGroup}
    {group : DuplicateGroup} (hwf : FilesMap.WF files) (h : NoConflict st.1) :
    NoConflict (stepGroup rules files existing st group).1 := by
  unfold stepGroup
  by_cases h1 : existing.contains group.id
  · rwa [if_pos h1]
  rw [if_neg h1]
  by_cases h2 : hasDecidedFile group st.1
  · rwa [if_pos h2]
  rw [if_neg h2]
  by_cases h3 : (evaluateGroup group rules files).needsManualReview
  · rwa [if_pos h3]
  rw [if_neg h3]
  cases hd : (evaluateGroup group rules files).decision with
  | none => exact h
  | some d =>
    simp only
    obtain ⟨k, hkeep, hkmem, hdel⟩ := evaluateGroup_decision_spec hwf hd
    have hfree := (hasDecidedFile_eq_false_iff group st.1).mp (Bool.eq_false_iff.mpr h2)
    intro d1 hd1 d2 hd2 f hf
    rw [List.mem_append, List.mem_singleton] at hd1 hd2
    rcases hd1 with hd1 | rfl
    · rcases hd2 with hd2 | rfl
      · exact h d1 hd1 d2 hd2 f hf
      · rw [hdel]
        intro hfd
        have hfg : f ∈ group.files := (List.mem_filter.mp hfd).1
        exact (hfree f hfg d1 hd1).1 hf
    · rcases hd2 with hd2 | rfl
      · rw [hkeep] at hf
        rw [List.mem_singleton] at hf
        subst hf
        exact fun hfd => (hfree f hkmem d2 hd2).2 hfd
      · rw [hkeep] at hf
        rw [List.mem_singleton] at hf
        subst hf
        rw [hdel]
        intro hfd
        have := (List.mem_filter.mp hfd).2
        simp at this

theorem foldl_noConflict {rules : DuplicateRules} {files : FilesMap}
    {existing : List String} (hwf : FilesMap.WF files) :
    ∀ (groups : List DuplicateGroup) (st : List ExtendedDecision × List DuplicateGroup),
      NoConflict st.1 →
      NoConflict (groups.foldl (stepGroup rules files existing) st).1 := by
  intro groups
  induction groups with
  | nil => intro st h; exact h
  | cons g gs ih =>
    intro st h
    exact ih _ (stepGroup_noConflict hwf h)

end ADOrdered

namespace ADWeighted

/-- Well-formedness of every decision the weighted `evaluateGroup`
produces. -/
theorem evaluateGroupW_decision_spec {group : DuplicateGroup} {rules : DuplicateRules}
    {filesMap : FilesMap} {d : ExtendedDecision} (hwf : FilesMap.WF filesMap)
    (h : (evaluateGroup group rules filesMap).decision = some d) :
    ∃ k, d.keep = [k] ∧ k ∈ group.files ∧
      d.delete = group.files.filter (fun p => p ≠ k) := by
  unfold evaluateGroup at h
  by_cases h2 : (group.files.filterMap (fun path => getFileMetadata path filesMap)).length < 2
  · rw [if_pos h2] at h
    simp at h
  rw [if_neg h2] at h
  by_cases h3 : JsRat.ofNat group.confidence < rules.confidenceThreshold
  · rw [if_pos h3] at h
    simp at h
  rw [if_neg h3] at h
  simp only at h
  set files := group.files.filterMap (fun path => getFileMetadata path filesMap) with hfiles
  set scores := files.map (fun file =>
    calculateFileScore file files rules.weights rules.pathPriority) with hsc
  cases hs : sortJs (fun a b => b.score ≤ a.score) scores with
  | nil => rw [hs] at h; simp at h
  | cons best rest =>
    cases rest with
    | nil => rw [hs] at h; simp at h
    | cons secondBest tl =>
      rw [hs] at h
      dsimp only at h
      by_cases hc : best.score - secondBest.score < rules.scoreDifferenceThreshold
      · rw [if_pos hc] at h
        simp at h
      rw [if_neg hc] at h
      simp only [Option.some.injEq] at h
      subst h
      refine ⟨best.file.path, rfl, ?_, rfl⟩
      have hbest : best ∈ scores := by
        have := sortJs_mem (fun a b => decide (b.score ≤ a.score)) scores best
        rw [hs] at this
        exact this.mp (by simp)
      obtain ⟨f, hf, hcalc⟩ := List.mem_map.mp hbest
      have hfile : best.file = f := by rw [← hcalc]; rfl
      obtain ⟨p, hp, hget⟩ := List.mem_filterMap.mp hf
      rw [hfile, FilesMap.get?_spec hwf hget]
      exact hp

end ADWeighted

/-! ## Claim C10 -/

/-- C10: every auto decision produced by `evaluateGroup` (in both the
ordered-rule and the weighted variant) is well-formed with respect to
its group: the keep list is a single group member, the delete list is
exactly the remaining group files, and keep and delete are disjoint. -/
theorem c10_evaluateGroup_wellformed (group : DuplicateGroup) (filesMap : FilesMap)
    (hwf : FilesMap.WF filesMap) :
    (∀ (rules : ADOrdered.DuplicateRules) (d : ADOrdered.ExtendedDecision),
      (ADOrdered.evaluateGroup group rules filesMap).decision = some d →
      ∃ k, d.keep = [k] ∧ k ∈ group.files ∧
        d.delete = group.files.filter (fun p => p ≠ k) ∧
        ∀ f ∈ d.keep, f ∉ d.delete) ∧
    (∀ (rules : ADWeighted.DuplicateRules) (d : ADWeighted.ExtendedDecision),
      (ADWeighted.evaluateGroup group rules filesMap).decision = some d →
      ∃ k, d.keep = [k] ∧ k ∈ group.files ∧
        d.delete = group.files.filter (fun p => p ≠ k) ∧
        ∀ f ∈ d.keep, f ∉ d.delete) := by
  constructor
  · intro rules d h
    obtain ⟨k, hkeep, hkmem, hdel⟩ := ADOrdered.evaluateGroup_decision_spec hwf h
    refine ⟨k, hkeep, hkmem, hdel, ?_⟩
    intro f hf
    rw [hkeep, List.mem_singleton] at hf
    subst hf
    rw [hdel]
    intro hfd
    have := (List.mem_filter.mp hfd).2
    simp at this
  · intro rules d h
    obtain ⟨k, hkeep, hkmem, hdel⟩ := ADWeighted.evaluateGroupW_decision_spec hwf h
    refine ⟨k, hkeep, hkmem, hdel, ?_⟩
    intro f hf
    rw [hkeep, List.mem_singleton] at hf
    subst hf
    rw [hdel]
    intro hfd
    have := (List.mem_filter.mp hfd).2
    simp at this

/-- C10 (witness): the well-formedness facts at the concrete twin
group, for the decisions both variants actually produce. -/
theorem c10_evaluateGroup_wellformed_witness :
    (∃ k, Fixture.decO.keep = [k] ∧ k ∈ Fixture.twinGroupOut.files ∧
      Fixture.decO.delete = Fixture.twinGroupOut.files.filter (fun p => p ≠ k) ∧
      ∀ f ∈ Fixture.decO.keep, f ∉ Fixture.decO.delete) ∧
    (∃ k, Fixture.decW.keep = [k] ∧ k ∈ Fixture.twinGroupOut.files ∧
      Fixture.decW.delete = Fixture.twinGroupOut.files.filter (fun p => p ≠ k) ∧
      ∀ f ∈ Fixture.decW.keep, f ∉ Fixture.decW.delete) :=
  ⟨(c10_evaluateGroup_wellformed Fixture.twinGroupOut Fixture.twinMap (by decide)).1
      Fixture.rulesO Fixture.decO (by decide),
   (c10_evaluateGroup_wellformed Fixture.twinGroupOut Fixture.twinMap (by decide)).2
      Fixture.rulesW Fixture.decW (by decide)⟩

/-! ## Claim C1 -/

/-- C1: for every input with an empty pre-existing decision set, the
auto decisions returned by the ordered-rule `applyRulesToGroups` never
put one path in a keep list and a delete list across the whole set
(the metadata store satisfies its path-keyed invariant). -/
theorem c1_applyRules_no_conflicts (groups : List DuplicateGroup)
    (rules : ADOrdered.DuplicateRules) (files : FilesMap) (hwf : FilesMap.WF files) :
    ∀ d1 ∈ (ADOrdered.applyRulesToGroups groups rules files []).autoDecisions,
      ∀ d2 ∈ (ADOrdered.applyRulesToGroups groups rules files []).autoDecisions,
        ∀ f ∈ d1.keep, f ∉ d2.delete := by
  have := @ADOrdered.foldl_noConflict rules files [] hwf groups ([], [])
    (by intro d1 hd1; simp at hd1)
  exact this

/-- C1 (witness): the conflict-freeness at a concrete run that
produces a decision. -/
theorem c1_applyRules_no_conflicts_witness :
    Fixture.decO ∈ (ADOrdered.applyRulesToGroups [Fixture.twinGroupOut] Fixture.rulesO
        Fixture.twinMap []).autoDecisions ∧
    "/b/x.mp3" ∈ Fixture.decO.keep ∧
    "/b/x.mp3" ∉ Fixture.decO.delete :=
  ⟨by decide, by decide,
    c1_applyRules_no_conflicts [Fixture.twinGroupOut] Fixture.rulesO Fixture.twinMap
      (by decide) Fixture.decO (by decide) Fixture.decO (by decide) "/b/x.mp3" (by decide)⟩

/-! ## Claim C3 -/

/-- C3 (counterexample): a member file of a group appears in the keep
list of a pre-existing, already-finalized decision, whose group id is
in the decided-id set passed to `applyRulesToGroups`; the group has a
different id and shares no file with same-pass decisions, and it is
*processed* (it contributes a manual-review entry), not skipped.  The
pre-existing decision set only contributes its group ids, so member
files of pre-existing decisions cannot cause a skip. -/
theorem c3_counterexample :
    "/a/x.mp3" ∈ Fixture.lowGroup.files ∧
    "/a/x.mp3" ∈ Fixture.preDecision.keep ∧
    Fixture.preDecision.groupId = "gX" ∧
    Fixture.lowGroup.id ≠ "gX" ∧
    (ADOrdered.applyRulesToGroups [Fixture.lowGroup] Fixture.rulesO Fixture.twinMap
      ["gX"]).manualGroups = [Fixture.lowGroup] := by decide

/-- C3 (amended): during `applyRulesToGroups`, a group is skipped
(contributes neither an auto decision nor a manual-review entry, i.e.
the loop state is unchanged) exactly when its group id belongs to the
pre-existing decided-id set, or one of its member files appears in a
decision made earlier in the same pass. -/
theorem c3_skip_iff (rules : ADOrdered.DuplicateRules) (files : FilesMap)
    (existing : List String) (st : List ADOrdered.ExtendedDecision × List DuplicateGroup)
    (group : DuplicateGroup) :
    ADOrdered.stepGroup rules files existing st group = st ↔
    (existing.contains group.id = true ∨ ADOrdered.hasDecidedFile group st.1 = true) := by
  constructor
  · intro h
    by_contra hn
    obtain ⟨h1, h2⟩ := not_or.mp hn
    unfold ADOrdered.stepGroup at h
    rw [if_neg h1, if_neg h2] at h
    by_cases h3 : (ADOrdered.evaluateGroup group rules files).needsManualReview
    · rw [if_pos h3] at h
      have hlen := congrArg (fun st => st.2.length) h
      simp at hlen
    · rw [if_neg h3] at h
      obtain ⟨d, hd⟩ := ADOrdered.evaluateGroup_total (Bool.eq_false_iff.mpr h3)
      rw [hd] at h
      have hlen := congrArg (fun st => st.1.length) h
      simp at hlen
  · intro h
    unfold ADOrdered.stepGroup
    rcases h with h | h
    · rw [if_pos h]
    · by_cases h1 : existing.contains group.id
      · rw [if_pos h1]
      · rw [if_neg h1, if_pos h]

/-! ## Claim C9 -/

namespace Loader

theorem loadLoop_takeWhile (parse : String → Option AudioFileMetadata) :
    ∀ (lines : List String) (files : FilesMap),
      loadLoop parse lines files =
        loadLoop parse (lines.takeWhile (fun l => (parse l).isSome)) files := by
  intro lines
  induction lines with
  | nil => intro files; rfl
  | cons line rest ih =>
    intro files
    unfold loadLoop
    cases hp : parse line with
    | none => simp [List.takeWhile_cons, hp, loadLoop]
    | some m => simp [List.takeWhile_cons, hp, loadLoop, ih]

end Loader

/-- C9 (counterexample): with a corrupt middle line, the loader keeps
only the records before it: the well-formed third line parses but its
record is not in the returned store — the bad unit is not merely
skipped. -/
theorem c9_counterexample :
    Fixture.parseToy "good2" ≠ none ∧
    (Loader.loadScannedFiles Fixture.parseToy "good1\nbad\ngood2").get? "good1" ≠ none ∧
    (Loader.loadScannedFiles Fixture.parseToy "good1\nbad\ngood2").get? "good2" = none := by
  decide

/-- C9 (amended): an unparseable line aborts the load loop: the store
returned by `loadScannedFiles` holds exactly the records of the
longest parseable prefix of the (nonempty) lines; records on lines at
or after the first unparseable line are not loaded. -/
theorem c9_load_stops_at_bad_line (parse : String → Option AudioFileMetadata)
    (data : String) :
    Loader.loadScannedFiles parse data =
      Loader.loadLoop parse
        (((Js.splitOnChar '\n' data).filter (· ≠ "")).takeWhile
          (fun l => (parse l).isSome)) [] := by
  unfold Loader.loadScannedFiles
  exact Loader.loadLoop_takeWhile parse _ []

/-! ## Lemmas for the cluster builder BFS -/

namespace Dup

theorem neighbors_sublist_values {m : Matches} {p : String} :
    ∀ x ∈ m.neighbors p, x ∈ m.nodes := by
  intro x hx
  unfold Matches.neighbors at hx
  cases hfind : List.find? (fun e => e.1 = p) m with
  | none => rw [hfind] at hx; simp at hx
  | some e =>
    rw [hfind] at hx
    simp at hx
    have hmem := List.mem_of_find?_eq_some hfind
    unfold Matches.nodes
    exact List.mem_flatMap.mpr ⟨e, hmem, by simp [hx]⟩

theorem keys_subset_nodes {m : Matches} : ∀ p ∈ m.keys, p ∈ m.nodes := by
  intro p hp
  obtain ⟨e, he, hpe⟩ := List.mem_map.mp hp
  exact List.mem_flatMap.mpr ⟨e, he, by simp [hpe]⟩

theorem neighbors_length_le (m : Matches) (p : String) :
    (m.neighbors p).length ≤ m.totalSize := by
  unfold Matches.neighbors Matches.totalSize
  cases hfind : List.find? (fun e => e.1 = p) m with
  | none => simp
  | some e =>
    simp only [Option.map_some', Option.getD_some]
    have hmem := List.mem_of_find?_eq_some hfind
    calc e.2.length ≤ ((m.map (fun e => e.2.length))).sum :=
      List.le_sum_of_mem (List.mem_map.mpr ⟨e, hmem, rfl⟩)
    _ = _ := rfl

theorem clusterMeasure_skip {m : Matches} {visited rest : List String} {current : String} :
    clusterMeasure m visited rest < clusterMeasure m visited (current :: rest) := by
  unfold clusterMeasure
  have hsub : (m.nodes.toFinset ∪ rest.toFinset) \ visited.toFinset ⊆
      (m.nodes.toFinset ∪ (current :: rest).toFinset) \ visited.toFinset := by
    intro x hx
    rw [Finset.mem_sdiff] at hx ⊢
    refine ⟨?_, hx.2⟩
    rcases Finset.mem_union.mp hx.1 with h | h
    · exact Finset.mem_union_left _ h
    · exact Finset.mem_union_right _ (by simp at h ⊢; exact Or.inr h)
  have := Finset.card_le_card hsub
  simp only [List.length_cons]
  nlinarith [this]

theorem clusterMeasure_visit {m : Matches} {visited rest : List String} {current : String}
    (hnv : current ∉ visited) :
    clusterMeasure m (visited ++ [current]) (rest ++
        (m.neighbors current).filter (fun n => !(visited ++ [current]).contains n)) <
      clusterMeasure m visited (current :: rest) := by
  unfold clusterMeasure
  set visited' := visited ++ [current] with hv
  set pushed := (m.neighbors current).filter (fun n => !visited'.contains n) with hp
  have hcur : current ∈ (m.nodes.toFinset ∪ (current :: rest).toFinset) \ visited.toFinset := by
    rw [Finset.mem_sdiff]
    exact ⟨Finset.mem_union_right _ (by simp), by simpa using hnv⟩
  have hsub : (m.nodes.toFinset ∪ (rest ++ pushed).toFinset) \ visited'.toFinset ⊆
      ((m.nodes.toFinset ∪ (current :: rest).toFinset) \ visited.toFinset).erase current := by
    intro x hx
    rw [Finset.mem_sdiff] at hx
    rw [Finset.mem_erase, Finset.mem_sdiff]
    have hxnotv : x ∉ visited'.toFinset → x ≠ current ∧ x ∉ visited.toFinset := by
      intro hxv
      constructor
      · intro hxc; exact hxv (by simp [hv, hxc])
      · intro hxv2; exact hxv (by simp [hv]; left; simpa using hxv2)
    obtain ⟨hne, hnv2⟩ := hxnotv hx.2
    refine ⟨hne, ?_, hnv2⟩
    rcases Finset.mem_union.mp hx.1 with h | h
    · exact Finset.mem_union_left _ h
    · rw [List.toFinset_append, Finset.mem_union] at h
      rcases h with h | h
      · exact Finset.mem_union_right _ (by simp at h ⊢; exact Or.inr h)
      · have hxp : x ∈ pushed := by simpa using h
        have : x ∈ m.neighbors current := (List.mem_filter.mp hxp).1
        exact Finset.mem_union_left _ (by
          simpa using neighbors_sublist_values x this)
  have hcard : ((m.nodes.toFinset ∪ (rest ++ pushed).toFinset) \ visited'.toFinset).card + 1 ≤
      ((m.nodes.toFinset ∪ (current :: rest).toFinset) \ visited.toFinset).card := by
    have h1 := Finset.card_le_card hsub
    have h2 := Finset.card_erase_of_mem hcur
    have h3 : 0 < ((m.nodes.toFinset ∪ (current :: rest).toFinset) \ visited.toFinset).card :=
      Finset.card_pos.mpr ⟨current, hcur⟩
    omega
  have hpush : pushed.length ≤ m.totalSize :=
    le_trans (List.length_filter_le _ _) (neighbors_length_le m current)
  simp only [List.length_append, List.length_cons]
  nlinarith [hcard, hpush]

end Dup

namespace Dup

theorem clusterAux_visited_mono (m : Matches) :
    ∀ (fuel : Nat) (visited cluster queue : List String) (x : String),
      x ∈ visited → x ∈ (clusterAux m fuel visited cluster queue).1 := by
  intro fuel
  induction fuel with
  | zero => intro visited cluster queue x hx; exact hx
  | succ f ih =>
    intro visited cluster queue x hx
    cases queue with
    | nil => exact hx
    | cons current rest =>
      unfold clusterAux
      by_cases hc : visited.contains current
      · rw [if_pos hc]; exact ih _ _ _ x hx
      · rw [if_neg hc]
        exact ih _ _ _ x (by simp [hx])

theorem clusterAux_cluster_mono (m : Matches) :
    ∀ (fuel : Nat) (visited cluster queue : List String) (x : String),
      x ∈ cluster → x ∈ (clusterAux m fuel visited cluster queue).2 := by
  intro fuel
  induction fuel with
  | zero => intro visited cluster queue x hx; exact hx
  | succ f ih =>
    intro visited cluster queue x hx
    cases queue with
    | nil => exact hx
    | cons current rest =>
      unfold clusterAux
      by_cases hc : visited.contains current
      · rw [if_pos hc]; exact ih _ _ _ x hx
      · rw [if_neg hc]
        exact ih _ _ _ x (by simp [hx])

/-- The visited set of the BFS result is the entry set plus the new
cluster members (given the running cluster sits inside visited). -/
theorem clusterAux_visited_iff (m : Matches) :
    ∀ (fuel : Nat) (visited cluster queue : List String),
      (∀ y ∈ cluster, y ∈ visited) →
      ∀ x, x ∈ (clusterAux m fuel visited cluster queue).1 ↔
        (x ∈ visited ∨ x ∈ (clusterAux m fuel visited cluster queue).2) := by
  intro fuel
  induction fuel with
  | zero =>
    intro visited cluster queue hcv x
    exact ⟨fun h => Or.inl h, fun h => h.elim id (fun h2 => hcv x h2)⟩
  | succ f ih =>
    intro visited cluster queue hcv x
    cases queue with
    | nil =>
      exact ⟨fun h => Or.inl h, fun h => h.elim id (fun h2 => hcv x h2)⟩
    | cons current rest =>
      unfold clusterAux
      by_cases hc : visited.contains current
      · rw [if_pos hc]; exact ih _ _ _ hcv x
      · rw [if_neg hc]
        have hcv' : ∀ y ∈ cluster ++ [current], y ∈ visited ++ [current] := by
          intro y hy
          rcases List.mem_append.mp hy with h | h
          · exact List.mem_append_left _ (hcv y h)
          · exact List.mem_append_right _ h
        constructor
        · intro h
          rcases (ih _ _ _ hcv' x).mp h with h2 | h2
          · rcases List.mem_append.mp h2 with h3 | h3
            · exact Or.inl h3
            · refine Or.inr ?_
              exact clusterAux_cluster_mono m f _ _ _ x (List.mem_append_right _ h3)
          · exact Or.inr h2
        · intro h
          rcases h with h2 | h2
          · exact clusterAux_visited_mono m f _ _ _ x (by simp [h2])
          · -- x in final cluster: final visited contains final cluster
            rcases (ih _ _ _ hcv' x).mpr (Or.inr h2) with h3
            exact h3

/-- Fresh cluster members were not already visited on entry. -/
theorem clusterAux_cluster_fresh (m : Matches) :
    ∀ (fuel : Nat) (visited cluster queue : List String),
      ∀ x ∈ (clusterAux m fuel visited cluster queue).2,
        x ∈ cluster ∨ x ∉ visited := by
  intro fuel
  induction fuel with
  | zero => intro visited cluster queue x hx; exact Or.inl hx
  | succ f ih =>
    intro visited cluster queue x hx
    cases queue with
    | nil => exact Or.inl hx
    | cons current rest =>
      unfold clusterAux at hx
      by_cases hc : visited.contains current
      · rw [if_pos hc] at hx; exact ih _ _ _ x hx
      · rw [if_neg hc] at hx
        rcases ih _ _ _ x hx with h | h
        · rcases List.mem_append.mp h with h2 | h2
          · exact Or.inl h2
          · right
            rw [List.mem_singleton] at h2
            subst h2
            simpa using hc
        · right
          intro hv
          exact h (List.mem_append_left _ hv)

/-- Cluster members come from the running cluster, the queue or the
adjacency structure. -/
theorem clusterAux_cluster_sources (m : Matches) :
    ∀ (fuel : Nat) (visited cluster queue : List String),
      ∀ x ∈ (clusterAux m fuel visited cluster queue).2,
        x ∈ cluster ∨ x ∈ queue ∨ x ∈ m.nodes := by
  intro fuel
  induction fuel with
  | zero => intro visited cluster queue x hx; exact Or.inl hx
  | succ f ih =>
    intro visited cluster queue x hx
    cases queue with
    | nil => exact Or.inl hx
    | cons current rest =>
      unfold clusterAux at hx
      by_cases hc : visited.contains current
      · rw [if_pos hc] at hx
        rcases ih _ _ _ x hx with h | h | h
        · exact Or.inl h
        · exact Or.inr (Or.inl (List.mem_cons_of_mem _ h))
        · exact Or.inr (Or.inr h)
      · rw [if_neg hc] at hx
        rcases ih _ _ _ x hx with h | h | h
        · rcases List.mem_append.mp h with h2 | h2
          · exact Or.inl h2
          · rw [List.mem_singleton] at h2
            exact Or.inr (Or.inl (h2 ▸ List.mem_cons_self current rest))
        · rcases List.mem_append.mp h with h2 | h2
          · exact Or.inr (Or.inl (List.mem_cons_of_mem _ h2))
          · have : x ∈ m.neighbors current := (List.mem_filter.mp h2).1
            exact Or.inr (Or.inr (neighbors_sublist_values x this))
        · exact Or.inr (Or.inr h)

/-- Nodup preservation through the BFS. -/
theorem clusterAux_nodup (m : Matches) :
    ∀ (fuel : Nat) (visited cluster queue : List String),
      visited.Nodup → cluster.Nodup → (∀ y ∈ cluster, y ∈ visited) →
      (clusterAux m fuel visited cluster queue).1.Nodup ∧
        (clusterAux m fuel visited cluster queue).2.Nodup := by
  intro fuel
  induction fuel with
  | zero => intro visited cluster queue h1 h2 _; exact ⟨h1, h2⟩
  | succ f ih =>
    intro visited cluster queue h1 h2 hcv
    cases queue with
    | nil => exact ⟨h1, h2⟩
    | cons current rest =>
      unfold clusterAux
      by_cases hc : visited.contains current
      · rw [if_pos hc]; exact ih _ _ _ h1 h2 hcv
      · rw [if_neg hc]
        have hncv : current ∉ visited := by simpa using hc
        refine ih _ _ _ ?_ ?_ ?_
        · simpa [List.nodup_append] using ⟨h1, hncv⟩
        · have hncc : current ∉ cluster := fun hcc => hncv (hcv current hcc)
          simpa [List.nodup_append] using ⟨h2, hncc⟩
        · intro y hy
          rcases List.mem_append.mp hy with h | h
          · exact List.mem_append_left _ (hcv y h)
          · exact List.mem_append_right _ h

end Dup

namespace Dup

/-- A measure bound forces the queue to be empty at fuel zero. -/
theorem clusterMeasure_queue_le (m : Matches) (visited queue : List String) :
    queue.length ≤ clusterMeasure m visited queue := by
  unfold clusterMeasure
  omega

/-- With adequate fuel, every queued node ends up visited. -/
theorem clusterAux_queue_drained (m : Matches) :
    ∀ (fuel : Nat) (visited cluster queue : List String),
      clusterMeasure m visited queue ≤ fuel →
      ∀ x ∈ queue, x ∈ (clusterAux m fuel visited cluster queue).1 := by
  intro fuel
  induction fuel with
  | zero =>
    intro visited cluster queue hfuel x hx
    have := clusterMeasure_queue_le m visited queue
    have : queue = [] := List.eq_nil_of_length_eq_zero (by omega)
    subst this
    simp at hx
  | succ f ih =>
    intro visited cluster queue hfuel x hx
    cases queue with
    | nil => simp at hx
    | cons current rest =>
      unfold clusterAux
      by_cases hc : visited.contains current
      · rw [if_pos hc]
        have hdec := @clusterMeasure_skip m visited rest current
        rcases List.mem_cons.mp hx with rfl | hx2
        · exact clusterAux_visited_mono m f _ _ _ x (by simpa using hc)
        · exact ih _ _ _ (by omega) x hx2
      · rw [if_neg hc]
        have hncv : current ∉ visited := by simpa using hc
        have hdec := @clusterMeasure_visit m visited rest current hncv
        rcases List.mem_cons.mp hx with rfl | hx2
        · exact clusterAux_visited_mono m f _ _ _ x (by simp)
        · exact ih _ _ _ (by omega) x (by simp [hx2])

/-- With adequate fuel, if every already-visited node has its
neighbours inside visited-or-queue, the final visited set is closed
under adjacency. -/
theorem clusterAux_closed (m : Matches) :
    ∀ (fuel : Nat) (visited cluster queue : List String),
      clusterMeasure m visited queue ≤ fuel →
      (∀ v ∈ visited, ∀ w ∈ m.neighbors v, w ∈ visited ∨ w ∈ queue) →
      ∀ v ∈ (clusterAux m fuel visited cluster queue).1,
        ∀ w ∈ m.neighbors v, w ∈ (clusterAux m fuel visited cluster queue).1 := by
  intro fuel
  induction fuel with
  | zero =>
    intro visited cluster queue hfuel hpre v hv w hw
    have : queue = [] := List.eq_nil_of_length_eq_zero
      (by have := clusterMeasure_queue_le m visited queue; omega)
    subst this
    rcases hpre v hv w hw with h | h
    · exact h
    · simp at h
  | succ f ih =>
    intro visited cluster queue hfuel hpre v hv w hw
    cases queue with
    | nil =>
      rcases hpre v hv w hw with h | h
      · exact h
      · simp at h
    | cons current rest =>
      unfold clusterAux at hv ⊢
      by_cases hc : visited.contains current
      · rw [if_pos hc] at hv ⊢
        have hdec := @clusterMeasure_skip m visited rest current
        refine ih _ _ _ (by omega) ?_ v hv w hw
        intro v2 hv2 w2 hw2
        rcases hpre v2 hv2 w2 hw2 with h | h
        · exact Or.inl h
        · rcases List.mem_cons.mp h with rfl | h2
          · exact Or.inl (by simpa using hc)
          · exact Or.inr h2
      · rw [if_neg hc] at hv ⊢
        have hncv : current ∉ visited := by simpa using hc
        have hdec := @clusterMeasure_visit m visited rest current hncv
        refine ih _ _ _ (by omega) ?_ v hv w hw
        intro v2 hv2 w2 hw2
        rcases List.mem_append.mp hv2 with h | h
        · rcases hpre v2 h w2 hw2 with h2 | h2
          · exact Or.inl (List.mem_append_left _ h2)
          · rcases List.mem_cons.mp h2 with rfl | h3
            · exact Or.inl (List.mem_append_right _ (by simp))
            · exact Or.inr (List.mem_append_left _ h3)
        · rw [List.mem_singleton] at h
          subst h
          by_cases hwv : w2 ∈ visited ++ [v2]
          · exact Or.inl hwv
          · refine Or.inr (List.mem_append_right _ ?_)
            rw [List.mem_filter]
            exact ⟨hw2, by simpa using hwv⟩

/-- The call-site fuel covers the measure. -/
theorem clusterFuel_adequate (m : Matches) (visited queue : List String) :
    clusterMeasure m visited queue ≤ clusterFuel m queue := by
  unfold clusterMeasure clusterFuel
  have hcard : ((m.nodes.toFinset ∪ queue.toFinset) \ visited.toFinset).card ≤
      m.length + m.totalSize + queue.length := by
    calc ((m.nodes.toFinset ∪ queue.toFinset) \ visited.toFinset).card
        ≤ (m.nodes.toFinset ∪ queue.toFinset).card :=
          Finset.card_le_card (Finset.sdiff_subset)
      _ ≤ m.nodes.toFinset.card + queue.toFinset.card := Finset.card_union_le _ _
      _ ≤ m.nodes.length + queue.length :=
          Nat.add_le_add (m.nodes.toFinset_card_le) (queue.toFinset_card_le)
      _ ≤ m.length + m.totalSize + queue.length := by
          have : m.nodes.length = m.length + m.totalSize := by
            unfold Matches.nodes Matches.totalSize
            induction m with
            | nil => simp
            | cons e es ihm =>
              simp only [List.flatMap_cons, List.length_append, List.length_cons,
                List.length_map, List.map_cons, List.sum_cons, ihm]
              omega
          omega
  nlinarith [hcard]

end Dup

namespace Dup

theorem clustersOuter_acc_mono (m : Matches) :
    ∀ (keys visited : List String) (acc : List (List String)) (S : List String),
      S ∈ acc → S ∈ clustersOuter m visited keys acc := by
  intro keys
  induction keys with
  | nil => intro visited acc S h; exact h
  | cons p ps ih =>
    intro visited acc S h
    unfold clustersOuter
    by_cases hc : visited.contains p
    · rw [if_pos hc]; exact ih _ _ S h
    · rw [if_neg hc]
      apply ih
      by_cases hlen :
          (clusterAux m (clusterFuel m [p]) visited [] [p]).2.length > 1
      · rw [if_pos hlen]
        exact List.mem_append_left _ h
      · rw [if_neg hlen]
        exact h

/-- Main invariant of the outer clustering loop: every processed key
belongs to a duplicate-free, adjacency-closed node set, and that set is
emitted as a cluster whenever it has at least two members. -/
theorem clustersOuter_spec (m : Matches)
    (hsym : ∀ p q : String, q ∈ m.neighbors p → p ∈ m.neighbors q) :
    ∀ (keys visited : List String) (acc : List (List String)),
      visited.Nodup →
      (∀ v ∈ visited, ∀ w ∈ m.neighbors v, w ∈ visited) →
      (∀ v ∈ visited, ∃ S, v ∈ S ∧ S.Nodup ∧
        (∀ u ∈ S, ∀ w ∈ m.neighbors u, w ∈ S) ∧
        (1 < S.length → S ∈ acc)) →
      ∀ p ∈ keys, ∃ S, p ∈ S ∧ S.Nodup ∧
        (∀ u ∈ S, ∀ w ∈ m.neighbors u, w ∈ S) ∧
        (1 < S.length → S ∈ clustersOuter m visited keys acc) := by
  intro keys
  induction keys with
  | nil => intro visited acc _ _ _ p hp; simp at hp
  | cons p' ps ih =>
    intro visited acc hnd hP1 hQ p hp
    unfold clustersOuter
    by_cases hc : visited.contains p'
    · rw [if_pos hc]
      rcases List.mem_cons.mp hp with rfl | hp2
      · obtain ⟨S, hS1, hS2, hS3, hS4⟩ := hQ p (by simpa using hc)
        exact ⟨S, hS1, hS2, hS3, fun hlen => clustersOuter_acc_mono m _ _ _ S (hS4 hlen)⟩
      · exact ih visited acc hnd hP1 hQ p hp2
    · rw [if_neg hc]
      have hncv : p' ∉ visited := by simpa using hc
      set r := clusterAux m (clusterFuel m [p']) visited [] [p'] with hr
      set acc1 := if r.2.length > 1 then acc ++ [r.2] else acc with hacc1
      have hK2 := clusterAux_visited_iff m (clusterFuel m [p']) visited [] [p']
        (by intro y hy; simp at hy)
      have hfresh : ∀ x ∈ r.2, x ∉ visited := by
        intro x hx
        rcases clusterAux_cluster_fresh m (clusterFuel m [p']) visited [] [p'] x hx with
          h | h
        · simp at h
        · exact h
      have hclosed1 : ∀ v ∈ r.1, ∀ w ∈ m.neighbors v, w ∈ r.1 := by
        apply clusterAux_closed m _ _ _ _ (clusterFuel_adequate m visited [p'])
        intro v hv w hw
        exact Or.inl (hP1 v hv w hw)
      have hp'1 : p' ∈ r.1 :=
        clusterAux_queue_drained m _ _ _ _ (clusterFuel_adequate m visited [p']) p' (by simp)
      have hp'2 : p' ∈ r.2 := by
        rcases (hK2 p').mp hp'1 with h | h
        · exact absurd h hncv
        · exact h
      have hclosedC : ∀ u ∈ r.2, ∀ w ∈ m.neighbors u, w ∈ r.2 := by
        intro u hu w hw
        have hu1 : u ∈ r.1 := (hK2 u).mpr (Or.inr hu)
        have hw1 : w ∈ r.1 := hclosed1 u hu1 w hw
        rcases (hK2 w).mp hw1 with h | h
        · exfalso
          exact hfresh u hu (hP1 w h u (hsym u w hw))
        · exact h
      have hnodups := clusterAux_nodup m (clusterFuel m [p']) visited [] [p'] hnd
        (by simp) (by intro y hy; simp at hy)
      have hQ1 : ∀ v ∈ r.1, ∃ S, v ∈ S ∧ S.Nodup ∧
          (∀ u ∈ S, ∀ w ∈ m.neighbors u, w ∈ S) ∧
          (1 < S.length → S ∈ acc1) := by
        intro v hv
        rcases (hK2 v).mp hv with h | h
        · obtain ⟨S, hS1, hS2, hS3, hS4⟩ := hQ v h
          refine ⟨S, hS1, hS2, hS3, fun hlen => ?_⟩
          rw [hacc1]
          by_cases hl : r.2.length > 1
          · rw [if_pos hl]; exact List.mem_append_left _ (hS4 hlen)
          · rw [if_neg hl]; exact hS4 hlen
        · refine ⟨r.2, h, hnodups.2, hclosedC, fun hlen => ?_⟩
          rw [hacc1, if_pos hlen]
          exact List.mem_append_right _ (by simp)
      have hP11 : ∀ v ∈ r.1, ∀ w ∈ m.neighbors v, w ∈ r.1 := hclosed1
      rcases List.mem_cons.mp hp with rfl | hp2
      · refine ⟨r.2, hp'2, hnodups.2, hclosedC, fun hlen => ?_⟩
        apply clustersOuter_acc_mono
        rw [if_pos hlen]
        exact List.mem_append_right _ (by simp)
      · exact ih r.1 acc1 hnodups.1 hP11 hQ1 p hp2

/-- Every key of the match graph lies in a closed, duplicate-free
node set which is a produced cluster as soon as it has two members. -/
theorem buildTransitiveClusters_spec (m : Matches)
    (hsym : ∀ p q : String, q ∈ m.neighbors p → p ∈ m.neighbors q)
    (p : String) (hp : p ∈ m.keys) :
    ∃ S, p ∈ S ∧ S.Nodup ∧
      (∀ u ∈ S, ∀ w ∈ m.neighbors u, w ∈ S) ∧
      (1 < S.length → S ∈ buildTransitiveClusters m) := by
  unfold buildTransitiveClusters
  exact clustersOuter_spec m hsym m.keys [] [] (by simp) (by simp) (by simp) p hp

/-- Cluster members live inside the node set of the match graph. -/
theorem clustersOuter_members_nodes (m : Matches) :
    ∀ (keys visited : List String) (acc : List (List String)),
      (∀ S ∈ acc, ∀ x ∈ S, x ∈ m.nodes) →
      (∀ p ∈ keys, p ∈ m.nodes) →
      ∀ S ∈ clustersOuter m visited keys acc, ∀ x ∈ S, x ∈ m.nodes := by
  intro keys
  induction keys with
  | nil => intro visited acc hacc _ S hS x hx; exact hacc S hS x hx
  | cons p' ps ih =>
    intro visited acc hacc hkeys S hS x hx
    unfold clustersOuter at hS
    by_cases hc : visited.contains p'
    · rw [if_pos hc] at hS
      exact ih _ _ hacc (fun p hp => hkeys p (List.mem_cons_of_mem _ hp)) S hS x hx
    · rw [if_neg hc] at hS
      refine ih _ _ ?_ (fun p hp => hkeys p (List.mem_cons_of_mem _ hp)) S hS x hx
      intro S2 hS2 x2 hx2
      by_cases hl : (clusterAux m (clusterFuel m [p']) visited [] [p']).2.length > 1
      · rw [if_pos hl] at hS2
        rcases List.mem_append.mp hS2 with h | h
        · exact hacc S2 h x2 hx2
        · rw [List.mem_singleton] at h
          subst h
          rcases clusterAux_cluster_sources m _ _ _ _ x2 hx2 with h | h | h
          · simp at h
          · rw [List.mem_singleton] at h
            exact h ▸ hkeys p' (by simp)
          · exact h
      · rw [if_neg hl] at hS2
        exact hacc S2 hS2 x2 hx2

end Dup

namespace Dup

theorem neighbors_nil (p : String) : Matches.neighbors [] p = [] := rfl

theorem neighbors_cons (e : String × List String) (m : Matches) (p : String) :
    Matches.neighbors (e :: m) p = if e.1 = p then e.2 else Matches.neighbors m p := by
  unfold Matches.neighbors
  by_cases h : e.1 = p
  · rw [if_pos h, List.find?_cons_of_pos _ (by simpa using h)]
    rfl
  · rw [if_neg h, List.find?_cons_of_neg _ (by simpa using h)]

theorem addNeighbor_cons (e : String × List String) (m : Matches) (k v : String) :
    Matches.addNeighbor (e :: m) k v =
      (if e.1 = k then (e.1, if e.2.contains v then e.2 else e.2 ++ [v]) else e) ::
        Matches.addNeighbor m k v := rfl

theorem addNeighbor_neighbors_ne (m : Matches) (k v p : String) (hpk : p ≠ k) :
    (m.addNeighbor k v).neighbors p = m.neighbors p := by
  induction m with
  | nil => rfl
  | cons e es ih =>
    rw [addNeighbor_cons, neighbors_cons, neighbors_cons]
    by_cases h : e.1 = k
    · rw [if_pos h]
      have h2 : ¬(e.1 = p) := by rw [h]; exact fun hc => hpk hc.symm
      rw [if_neg (by simpa using h2), if_neg h2]
      exact ih
    · rw [if_neg h]
      by_cases h2 : e.1 = p
      · rw [if_pos h2, if_pos h2]
      · rw [if_neg h2, if_neg h2]
        exact ih

theorem addNeighbor_neighbors_self (m : Matches) (k v : String) (hk : k ∈ m.keys) :
    (m.addNeighbor k v).neighbors k =
      (if (m.neighbors k).contains v then m.neighbors k else m.neighbors k ++ [v]) := by
  induction m with
  | nil => simp [Matches.keys] at hk
  | cons e es ih =>
    rw [addNeighbor_cons, neighbors_cons, neighbors_cons]
    by_cases h : e.1 = k
    · simp only [if_pos h]
    · simp only [if_neg h]
      have hk2 : k ∈ Matches.keys es := by
        rcases List.mem_cons.mp hk with h2 | h2
        · exact absurd h2.symm h
        · exact h2
      exact ih hk2

theorem addNeighbor_keys (m : Matches) (k v : String) :
    (m.addNeighbor k v).keys = m.keys := by
  induction m with
  | nil => rfl
  | cons e es ih =>
    rw [addNeighbor_cons]
    show _ :: (Matches.addNeighbor es k v).keys = _ :: Matches.keys es
    rw [ih]
    congr 1
    by_cases h : e.1 = k
    · rw [if_pos h]
    · rw [if_neg h]

theorem neighbors_append_newKey (m : Matches) (k p : String) :
    Matches.neighbors (m ++ [(k, [])]) p = m.neighbors p := by
  induction m with
  | nil =>
    rw [neighbors_nil]
    show Matches.neighbors [(k, [])] p = []
    rw [neighbors_cons]
    by_cases h2 : k = p
    · rw [if_pos h2]
    · rw [if_neg h2, neighbors_nil]
  | cons e es ih =>
    show Matches.neighbors (e :: (es ++ [(k, [])])) p = _
    rw [neighbors_cons, neighbors_cons]
    by_cases h2 : e.1 = p
    · rw [if_pos h2, if_pos h2]
    · rw [if_neg h2, if_neg h2]
      exact ih

theorem ensureKey_neighbors (m : Matches) (k p : String) :
    (m.ensureKey k).neighbors p = m.neighbors p := by
  unfold Matches.ensureKey
  by_cases h : m.any (fun e => e.1 = k)
  · rw [if_pos h]
  · rw [if_neg h]
    exact neighbors_append_newKey m k p

theorem ensureKey_keys_mem (m : Matches) (k : String) :
    k ∈ (m.ensureKey k).keys := by
  unfold Matches.ensureKey
  by_cases h : m.any (fun e => e.1 = k)
  · rw [if_pos h]
    simp only [List.any_eq_true, decide_eq_true_eq] at h
    obtain ⟨e, he, hek⟩ := h
    exact hek ▸ List.mem_map.mpr ⟨e, he, rfl⟩
  · rw [if_neg h]
    unfold Matches.keys
    simp

theorem ensureKey_keys_mono (m : Matches) (k p : String) (hp : p ∈ m.keys) :
    p ∈ (m.ensureKey k).keys := by
  unfold Matches.ensureKey
  by_cases h : m.any (fun e => e.1 = k)
  · rw [if_pos h]; exact hp
  · rw [if_neg h]
    unfold Matches.keys at hp ⊢
    simp at hp ⊢
    tauto

theorem mem_self_or_append (l : List String) (v : String) :
    v ∈ (if l.contains v then l else l ++ [v]) := by
  by_cases h : l.contains v
  · rw [if_pos h]; simpa using h
  · rw [if_neg h]; simp

theorem addEdge_neighbors_mem_left (m : Matches) (a b : String) :
    b ∈ (m.addEdge a b).neighbors a := by
  unfold Matches.addEdge
  have ha : a ∈ ((m.ensureKey a).ensureKey b).keys :=
    ensureKey_keys_mono _ b a (ensureKey_keys_mem m a)
  by_cases hab : b = a
  · subst hab
    rw [addNeighbor_neighbors_self _ _ _ (by rw [addNeighbor_keys]; exact ha)]
    exact mem_self_or_append _ b
  · rw [addNeighbor_neighbors_ne _ _ _ _ (fun h => hab h.symm)]
    rw [addNeighbor_neighbors_self _ _ _ ha]
    exact mem_self_or_append _ b

theorem addEdge_neighbors_mem_right (m : Matches) (a b : String) :
    a ∈ (m.addEdge a b).neighbors b := by
  unfold Matches.addEdge
  have hb : b ∈ ((m.ensureKey a).ensureKey b).keys := ensureKey_keys_mem _ b
  rw [addNeighbor_neighbors_self _ _ _ (by rw [addNeighbor_keys]; exact hb)]
  exact mem_self_or_append _ a

theorem addNeighbor_neighbors_mono (m : Matches) (k v p q : String)
    (h : q ∈ m.neighbors p) : q ∈ (m.addNeighbor k v).neighbors p := by
  by_cases hpk : p = k
  · subst hpk
    by_cases hkmem : p ∈ m.keys
    · rw [addNeighbor_neighbors_self _ _ _ hkmem]
      by_cases hc : (m.neighbors p).contains v
      · rw [if_pos hc]; exact h
      · rw [if_neg hc]; exact List.mem_append_left _ h
    · have : m.neighbors p = [] := by
        unfold Matches.neighbors
        cases hfind : List.find? (fun e => e.1 = p) m with
        | none => simp
        | some e =>
          exfalso
          apply hkmem
          have hpred := List.find?_some hfind
          simp only [decide_eq_true_eq] at hpred
          exact hpred ▸ List.mem_map.mpr ⟨e, List.mem_of_find?_eq_some hfind, rfl⟩
      rw [this] at h
      simp at h
  · rw [addNeighbor_neighbors_ne _ _ _ _ hpk]
    exact h

theorem addEdge_neighbors_mono (m : Matches) (a b p q : String)
    (h : q ∈ m.neighbors p) : q ∈ (m.addEdge a b).neighbors p := by
  unfold Matches.addEdge
  apply addNeighbor_neighbors_mono
  apply addNeighbor_neighbors_mono
  rw [ensureKey_neighbors, ensureKey_neighbors]
  exact h

end Dup

namespace Dup

theorem neighbors_eq_nil_of_not_key (m : Matches) (p : String) (hp : p ∉ m.keys) :
    m.neighbors p = [] := by
  unfold Matches.neighbors
  cases hfind : List.find? (fun e => e.1 = p) m with
  | none => simp
  | some e =>
    exfalso
    apply hp
    have hpred := List.find?_some hfind
    simp only [decide_eq_true_eq] at hpred
    exact hpred ▸ List.mem_map.mpr ⟨e, List.mem_of_find?_eq_some hfind, rfl⟩

theorem mem_keys_of_mem_neighbors {m : Matches} {p q : String}
    (h : q ∈ m.neighbors p) : p ∈ m.keys := by
  by_cases hp : p ∈ m.keys
  · exact hp
  · rw [neighbors_eq_nil_of_not_key m p hp] at h
    simp at h

theorem addNeighbor_neighbors_char (m : Matches) (k v p q : String) :
    q ∈ (m.addNeighbor k v).neighbors p ↔
      q ∈ m.neighbors p ∨ (p = k ∧ p ∈ m.keys ∧ q = v) := by
  by_cases hpk : p = k
  · subst hpk
    by_cases hkey : p ∈ m.keys
    · rw [addNeighbor_neighbors_self m p v hkey]
      by_cases hc : (m.neighbors p).contains v
      · rw [if_pos hc]
        constructor
        · exact fun h => Or.inl h
        · rintro (h | ⟨_, _, rfl⟩)
          · exact h
          · simpa using hc
      · rw [if_neg hc]
        constructor
        · intro h
          rcases List.mem_append.mp h with h2 | h2
          · exact Or.inl h2
          · rw [List.mem_singleton] at h2
            exact Or.inr ⟨rfl, hkey, h2⟩
        · rintro (h | ⟨_, _, rfl⟩)
          · exact List.mem_append_left _ h
          · simp
    · have he1 : m.neighbors p = [] := neighbors_eq_nil_of_not_key m p hkey
      have he2 : (m.addNeighbor p v).neighbors p = [] := by
        apply neighbors_eq_nil_of_not_key
        rw [addNeighbor_keys]
        exact hkey
      rw [he1, he2]
      simp [hkey]
  · rw [addNeighbor_neighbors_ne m k v p hpk]
    simp [hpk]

theorem addEdge_neighbors_char (m : Matches) (a b p q : String) :
    q ∈ (m.addEdge a b).neighbors p ↔
      q ∈ m.neighbors p ∨ (p = a ∧ q = b) ∨ (p = b ∧ q = a) := by
  constructor
  · intro h
    unfold Matches.addEdge at h
    rcases (addNeighbor_neighbors_char _ b a p q).mp h with h2 | ⟨hpb, _, hqa⟩
    · rcases (addNeighbor_neighbors_char _ a b p q).mp h2 with h3 | ⟨hpa, _, hqb⟩
      · rw [ensureKey_neighbors, ensureKey_neighbors] at h3
        exact Or.inl h3
      · exact Or.inr (Or.inl ⟨hpa, hqb⟩)
    · exact Or.inr (Or.inr ⟨hpb, hqa⟩)
  · rintro (h | ⟨rfl, rfl⟩ | ⟨rfl, rfl⟩)
    · exact addEdge_neighbors_mono m a b p q h
    · exact addEdge_neighbors_mem_left m p q
    · exact addEdge_neighbors_mem_right m q p

theorem addEdge_symmetric {m : Matches} (hs : SymmetricNeighbors m) (a b : String) :
    SymmetricNeighbors (m.addEdge a b) := by
  intro p q h
  rcases (addEdge_neighbors_char m a b p q).mp h with h2 | ⟨rfl, rfl⟩ | ⟨rfl, rfl⟩
  · exact (addEdge_neighbors_char m a b q p).mpr (Or.inl (hs p q h2))
  · exact addEdge_neighbors_mem_right m p q
  · exact addEdge_neighbors_mem_left m q p

theorem addNeighbor_nodes_sub (m : Matches) (k v : String) :
    ∀ x ∈ (m.addNeighbor k v).nodes, x ∈ m.nodes ∨ x = v := by
  intro x hx
  unfold Matches.nodes Matches.addNeighbor at hx
  rw [List.flatMap_map] at hx
  obtain ⟨e, he, hxe⟩ := List.mem_flatMap.mp hx
  by_cases h : e.1 = k
  · rw [if_pos h] at hxe
    rcases List.mem_cons.mp hxe with rfl | hx2
    · exact Or.inl (List.mem_flatMap.mpr ⟨e, he, by simp⟩)
    · by_cases hc : e.2.contains v
      · rw [if_pos hc] at hx2
        exact Or.inl (List.mem_flatMap.mpr ⟨e, he, by simp [hx2]⟩)
      · rw [if_neg hc] at hx2
        rcases List.mem_append.mp hx2 with h3 | h3
        · exact Or.inl (List.mem_flatMap.mpr ⟨e, he, by simp [h3]⟩)
        · rw [List.mem_singleton] at h3
          exact Or.inr h3
  · rw [if_neg h] at hxe
    exact Or.inl (List.mem_flatMap.mpr ⟨e, he, hxe⟩)

theorem ensureKey_nodes_sub (m : Matches) (k : String) :
    ∀ x ∈ (m.ensureKey k).nodes, x ∈ m.nodes ∨ x = k := by
  intro x hx
  unfold Matches.ensureKey at hx
  by_cases h : m.any (fun e => e.1 = k)
  · rw [if_pos h] at hx
    exact Or.inl hx
  · rw [if_neg h] at hx
    unfold Matches.nodes at hx ⊢
    rw [List.flatMap_append] at hx
    rcases List.mem_append.mp hx with h2 | h2
    · exact Or.inl h2
    · simp at h2
      exact Or.inr h2

theorem addEdge_nodes_sub (m : Matches) (a b : String) :
    ∀ x ∈ (m.addEdge a b).nodes, x ∈ m.nodes ∨ x = a ∨ x = b := by
  intro x hx
  unfold Matches.addEdge at hx
  rcases addNeighbor_nodes_sub _ b a x hx with h | rfl
  · rcases addNeighbor_nodes_sub _ a b x h with h2 | rfl
    · rcases ensureKey_nodes_sub _ b x h2 with h3 | rfl
      · rcases ensureKey_nodes_sub _ a x h3 with h4 | rfl
        · exact Or.inl h4
        · exact Or.inr (Or.inl rfl)
      · exact Or.inr (Or.inr rfl)
    · exact Or.inr (Or.inr rfl)
  · exact Or.inr (Or.inl rfl)

theorem listPairs_mem {l : List α} {ab : α × α} (h : ab ∈ listPairs l) :
    ab.1 ∈ l ∧ ab.2 ∈ l := by
  induction l with
  | nil => simp [listPairs] at h
  | cons x xs ih =>
    unfold listPairs at h
    rcases List.mem_append.mp h with h2 | h2
    · obtain ⟨y, hy, hab⟩ := List.mem_map.mp h2
      rw [← hab]
      exact ⟨by simp, by simp [hy]⟩
    · obtain ⟨h3, h4⟩ := ih h2
      exact ⟨List.mem_cons_of_mem _ h3, List.mem_cons_of_mem _ h4⟩

theorem listPairs_complete {l : List α} {a b : α} (ha : a ∈ l) (hb : b ∈ l)
    (hne : a ≠ b) : (a, b) ∈ listPairs l ∨ (b, a) ∈ listPairs l := by
  induction l with
  | nil => simp at ha
  | cons x xs ih =>
    unfold listPairs
    rcases List.mem_cons.mp ha with rfl | ha2
    · have hb2 : b ∈ xs := by
        rcases List.mem_cons.mp hb with rfl | h
        · exact absurd rfl hne
        · exact h
      exact Or.inl (List.mem_append_left _ (List.mem_map.mpr ⟨b, hb2, rfl⟩))
    · rcases List.mem_cons.mp hb with rfl | hb2
      · exact Or.inr (List.mem_append_left _ (List.mem_map.mpr ⟨a, ha2, rfl⟩))
      · rcases ih ha2 hb2 with h | h
        · exact Or.inl (List.mem_append_right _ h)
        · exact Or.inr (List.mem_append_right _ h)

end Dup

namespace Dup

/-- The fold step of `buildMatches`. -/
theorem buildMatches_foldl_mono (config : Config) :
    ∀ (pairs : List (AudioFileMetadata × AudioFileMetadata)) (m0 : Matches)
      (p q : String), q ∈ m0.neighbors p →
      q ∈ (pairs.foldl (fun m (ab : AudioFileMetadata × AudioFileMetadata) =>
        if JsRat.ofNat (compareFiles ab.1 ab.2 config).score < config.duplicateScoreThreshold
        then m else m.addEdge ab.1.path ab.2.path) m0).neighbors p := by
  intro pairs
  induction pairs with
  | nil => intro m0 p q h; exact h
  | cons ab rest ih =>
    intro m0 p q h
    rw [List.foldl_cons]
    by_cases hsc : JsRat.ofNat (compareFiles ab.1 ab.2 config).score <
        config.duplicateScoreThreshold
    · rw [if_pos hsc]
      exact ih m0 p q h
    · rw [if_neg hsc]
      exact ih _ p q (addEdge_neighbors_mono m0 _ _ p q h)

theorem buildMatches_foldl_edge (config : Config) :
    ∀ (pairs : List (AudioFileMetadata × AudioFileMetadata)) (m0 : Matches)
      (a b : AudioFileMetadata), (a, b) ∈ pairs →
      ¬(JsRat.ofNat (compareFiles a b config).score < config.duplicateScoreThreshold) →
      b.path ∈ (pairs.foldl (fun m (ab : AudioFileMetadata × AudioFileMetadata) =>
        if JsRat.ofNat (compareFiles ab.1 ab.2 config).score < config.duplicateScoreThreshold
        then m else m.addEdge ab.1.path ab.2.path) m0).neighbors a.path := by
  intro pairs
  induction pairs with
  | nil => intro m0 a b h; simp at h
  | cons ab rest ih =>
    intro m0 a b hmem hsc
    rw [List.foldl_cons]
    rcases List.mem_cons.mp hmem with heq | h2
    · subst heq
      dsimp only
      rw [if_neg hsc]
      exact buildMatches_foldl_mono config rest _ _ _ (addEdge_neighbors_mem_left m0 _ _)
    · by_cases hsc2 : JsRat.ofNat (compareFiles ab.1 ab.2 config).score <
          config.duplicateScoreThreshold
      · rw [if_pos hsc2]
        exact ih m0 a b h2 hsc
      · rw [if_neg hsc2]
        exact ih _ a b h2 hsc

theorem buildMatches_foldl_symm (config : Config) :
    ∀ (pairs : List (AudioFileMetadata × AudioFileMetadata)) (m0 : Matches),
      SymmetricNeighbors m0 →
      SymmetricNeighbors (pairs.foldl
        (fun m (ab : AudioFileMetadata × AudioFileMetadata) =>
          if JsRat.ofNat (compareFiles ab.1 ab.2 config).score < config.duplicateScoreThreshold
          then m else m.addEdge ab.1.path ab.2.path) m0) := by
  intro pairs
  induction pairs with
  | nil => intro m0 h; exact h
  | cons ab rest ih =>
    intro m0 h
    rw [List.foldl_cons]
    by_cases hsc : JsRat.ofNat (compareFiles ab.1 ab.2 config).score <
        config.duplicateScoreThreshold
    · rw [if_pos hsc]; exact ih m0 h
    · rw [if_neg hsc]; exact ih _ (addEdge_symmetric h _ _)

theorem buildMatches_foldl_nodes (config : Config) :
    ∀ (pairs : List (AudioFileMetadata × AudioFileMetadata)) (m0 : Matches)
      (x : String), x ∈ (pairs.foldl
        (fun m (ab : AudioFileMetadata × AudioFileMetadata) =>
          if JsRat.ofNat (compareFiles ab.1 ab.2 config).score < config.duplicateScoreThreshold
          then m else m.addEdge ab.1.path ab.2.path) m0).nodes →
      x ∈ m0.nodes ∨ ∃ ab ∈ pairs, x = ab.1.path ∨ x = ab.2.path := by
  intro pairs
  induction pairs with
  | nil => intro m0 x h; exact Or.inl h
  | cons ab rest ih =>
    intro m0 x h
    rw [List.foldl_cons] at h
    by_cases hsc : JsRat.ofNat (compareFiles ab.1 ab.2 config).score <
        config.duplicateScoreThreshold
    · rw [if_pos hsc] at h
      rcases ih m0 x h with h2 | ⟨p2, hp2, hx⟩
      · exact Or.inl h2
      · exact Or.inr ⟨p2, List.mem_cons_of_mem _ hp2, hx⟩
    · rw [if_neg hsc] at h
      rcases ih _ x h with h2 | ⟨p2, hp2, hx⟩
      · rcases addEdge_nodes_sub m0 _ _ x h2 with h3 | h3 | h3
        · exact Or.inl h3
        · exact Or.inr ⟨ab, by simp, Or.inl h3⟩
        · exact Or.inr ⟨ab, by simp, Or.inr h3⟩
      · exact Or.inr ⟨p2, List.mem_cons_of_mem _ hp2, hx⟩

/-- Both directions of a qualifying edge are present in the match
graph. -/
theorem buildMatches_edge {fileList : List AudioFileMetadata} {config : Config}
    {a b : AudioFileMetadata} (ha : a ∈ fileList) (hb : b ∈ fileList)
    (hne : a.path ≠ b.path)
    (hsc : ¬(JsRat.ofNat (compareFiles a b config).score < config.duplicateScoreThreshold)) :
    b.path ∈ (buildMatches fileList config).neighbors a.path := by
  have hneq : a ≠ b := fun h => hne (h ▸ rfl)
  unfold buildMatches
  rcases listPairs_complete ha hb hneq with h | h
  · exact buildMatches_foldl_edge config _ [] a b h hsc
  · have hsc2 : ¬(JsRat.ofNat (compareFiles b a config).score <
        config.duplicateScoreThreshold) := by
      rw [compareFiles_symm b a config]
      exact hsc
    have := buildMatches_foldl_edge config (listPairs fileList) [] b a h hsc2
    have hsymm := buildMatches_foldl_symm config (listPairs fileList) []
      (by intro p q hq; rw [neighbors_nil] at hq; simp at hq)
    exact hsymm _ _ this

theorem buildMatches_symm (fileList : List AudioFileMetadata) (config : Config) :
    SymmetricNeighbors (buildMatches fileList config) := by
  unfold buildMatches
  exact buildMatches_foldl_symm config (listPairs fileList) []
    (by intro p q hq; rw [neighbors_nil] at hq; simp at hq)

theorem buildMatches_nodes {fileList : List AudioFileMetadata} {config : Config}
    {x : String} (h : x ∈ (buildMatches fileList config).nodes) :
    ∃ f ∈ fileList, x = f.path := by
  unfold buildMatches at h
  rcases buildMatches_foldl_nodes config (listPairs fileList) [] x h with h2 | ⟨ab, hab, hx⟩
  · simp [Matches.nodes] at h2
  · obtain ⟨h1, h2⟩ := listPairs_mem hab
    rcases hx with rfl | rfl
    · exact ⟨ab.1, h1, rfl⟩
    · exact ⟨ab.2, h2, rfl⟩

end Dup

theorem one_lt_length_of_two_mem {l : List α} {a b : α} (ha : a ∈ l) (hb : b ∈ l)
    (hne : a ≠ b) : 1 < l.length := by
  cases l with
  | nil => simp at ha
  | cons x xs =>
    cases xs with
    | nil =>
      rw [List.mem_singleton] at ha hb
      exact absurd (ha.trans hb.symm) hne
    | cons y ys => simp

theorem mem_enumFrom_of_mem {l : List α} {x : α} (h : x ∈ l) :
    ∀ n, ∃ i, (i, x) ∈ l.enumFrom n := by
  induction l with
  | nil => simp at h
  | cons y ys ih =>
    intro n
    rcases List.mem_cons.mp h with rfl | h2
    · exact ⟨n, by simp [List.enumFrom]⟩
    · obtain ⟨i, hi⟩ := ih h2 (n + 1)
      exact ⟨i, by simp [List.enumFrom, hi]⟩

theorem mem_enum_of_mem {l : List α} {x : α} (h : x ∈ l) : ∃ i, (i, x) ∈ l.enum :=
  mem_enumFrom_of_mem h 0

/-! ## Claim C4 -/

/-- C4: clustering computes the transitive closure — when A matches B
and B matches C at or above the threshold but A does not directly
match C, `findDuplicates` still places all three paths in one
duplicate group. -/
theorem c4_transitive_clusters (files : FilesMap) (config : Config)
    (A B C : AudioFileMetadata)
    (hA : A ∈ files.values) (hB : B ∈ files.values) (hC : C ∈ files.values)
    (hABp : A.path ≠ B.path) (hBCp : B.path ≠ C.path) (hACp : A.path ≠ C.path)
    (hsAB : ¬(JsRat.ofNat (Dup.compareFiles A B config).score <
      config.duplicateScoreThreshold))
    (hsBC : ¬(JsRat.ofNat (Dup.compareFiles B C config).score <
      config.duplicateScoreThreshold))
    (hsAC : JsRat.ofNat (Dup.compareFiles A C config).score <
      config.duplicateScoreThreshold) :
    ∃ g ∈ Dup.findDuplicates files config,
      A.path ∈ g.files ∧ B.path ∈ g.files ∧ C.path ∈ g.files := by
  have hsym := Dup.buildMatches_symm files.values config
  have edgeAB : B.path ∈ (Dup.buildMatches files.values config).neighbors A.path :=
    Dup.buildMatches_edge hA hB hABp hsAB
  have edgeBC : C.path ∈ (Dup.buildMatches files.values config).neighbors B.path :=
    Dup.buildMatches_edge hB hC hBCp hsBC
  have hkey : A.path ∈ (Dup.buildMatches files.values config).keys :=
    Dup.mem_keys_of_mem_neighbors edgeAB
  obtain ⟨S, hpS, hndS, hclosed, hout⟩ :=
    Dup.buildTransitiveClusters_spec (Dup.buildMatches files.values config) hsym A.path hkey
  have hBS : B.path ∈ S := hclosed A.path hpS B.path edgeAB
  have hCS : C.path ∈ S := hclosed B.path hBS C.path edgeBC
  have hlen : 1 < S.length := one_lt_length_of_two_mem hpS hBS hABp
  have hSclusters := hout hlen
  obtain ⟨i, hi⟩ := mem_enum_of_mem hSclusters
  refine ⟨{ id := "group-" ++ toString (i + 1)
            confidence := Dup.calculateGroupConfidence S files config
            files := S
            matchReasons := Dup.collectMatchReasons S files config
            suggestedKeep := Dup.selectBestFile S files }, ?_, hpS, hBS, hCS⟩
  unfold Dup.findDuplicates
  rw [sortJs_mem]
  exact List.mem_map.mpr ⟨(i, S), hi, rfl⟩

/-- C4 (witness): the transitive-closure guarantee at a concrete
three-file chain (A-B and B-C within the 5-second duration tolerance,
A-C outside it). -/
theorem c4_transitive_clusters_witness :
    ∃ g ∈ Dup.findDuplicates Fixture.chainMap Fixture.cfg,
      Fixture.chainA.path ∈ g.files ∧ Fixture.chainB.path ∈ g.files ∧
      Fixture.chainC.path ∈ g.files :=
  c4_transitive_clusters Fixture.chainMap Fixture.cfg
    Fixture.chainA Fixture.chainB Fixture.chainC
    (by decide) (by decide) (by decide) (by decide) (by decide) (by decide)
    (by decide) (by decide) (by decide)

/-! ## Claim C6 -/

namespace Dup

theorem listPairs_cons (x : α) (xs : List α) :
    listPairs (x :: xs) = xs.map (fun y => (x, y)) ++ listPairs xs := rfl

theorem filterMap_pairFun_map (f : α → Option β) (x : α) (xs : List α) :
    (xs.map (fun y => (x, y))).filterMap (fun pq : α × α =>
        match f pq.1, f pq.2 with
        | some a, some b => some (a, b)
        | _, _ => none) =
      (match f x with
       | none => []
       | some a => (xs.filterMap f).map (fun b => (a, b))) := by
  induction xs with
  | nil => cases hx : f x <;> simp
  | cons y ys ih =>
    simp only [List.map_cons, List.filterMap_cons]
    cases hx : f x <;> cases hy : f y <;>
      simp only [hx, hy] at ih ⊢ <;> (try simp [ih])

theorem listPairs_filterMap (f : α → Option β) (l : List α) :
    listPairs (l.filterMap f) = (listPairs l).filterMap
      (fun pq : α × α =>
        match f pq.1, f pq.2 with
        | some a, some b => some (a, b)
        | _, _ => none) := by
  induction l with
  | nil => simp [listPairs]
  | cons x xs ih =>
    rw [listPairs_cons, List.filterMap_append, filterMap_pairFun_map, List.filterMap_cons]
    cases hx : f x with
    | none => simpa using ih
    | some a =>
      rw [listPairs_cons, ih]
      try (congr 1; try rw [← List.map_filterMap])

theorem filterMap_ext {f g : α → Option β} (l : List α) (h : ∀ x ∈ l, f x = g x) :
    l.filterMap f = l.filterMap g := by
  induction l with
  | nil => rfl
  | cons x xs ih =>
    rw [List.filterMap_cons, List.filterMap_cons, h x (by simp)]
    cases g x <;> simp [ih (fun y hy => h y (List.mem_cons_of_mem _ hy))]

/-- The code confidence equals the specification confidence taken over
the member records present in the store. -/
theorem calculateGroupConfidence_eq_spec (c : List String) (files : FilesMap)
    (config : Config) :
    calculateGroupConfidence c files config =
      specGroupConfidence (c.filterMap files.get?) config := by
  unfold calculateGroupConfidence specGroupConfidence
  rw [listPairs_filterMap, List.map_filterMap]
  apply congrArg (fun scores : List Nat =>
    if scores.length = 0 then (0 : Nat) else roundRatio scores.sum scores.length)
  apply filterMap_ext
  intro pq _
  cases h1 : files.get? pq.1 <;> cases h2 : files.get? pq.2 <;> rfl

theorem mem_keys_get?_isSome {files : FilesMap} {p : String}
    (hp : p ∈ files.map Prod.fst) : ∃ r, files.get? p = some r := by
  have : (files.find? (fun e => e.1 = p)).isSome := by
    rw [List.find?_isSome]
    obtain ⟨e, he, hep⟩ := List.mem_map.mp hp
    exact ⟨e, he, by simp [hep]⟩
  cases hfind : files.find? (fun e => e.1 = p) with
  | none => rw [hfind] at this; simp at this
  | some e => exact ⟨e.2, by simp [FilesMap.get?, hfind]⟩

end Dup

/-- C6: for every group produced by `findDuplicates` on a well-formed
store, every member has a record in the store, and the group
confidence equals the rounded arithmetic mean of `compareFiles` scores
over every unordered intra-group pair of members (all pairs, not only
those at or above the threshold) — `specGroupConfidence` is written
directly from the specification text. -/
theorem c6_confidence_is_pair_mean (files : FilesMap) (config : Config)
    (hwf : FilesMap.WF files) (g : DuplicateGroup)
    (hg : g ∈ Dup.findDuplicates files config) :
    (∀ p ∈ g.files, ∃ r, files.get? p = some r) ∧
    g.confidence = Dup.specGroupConfidence (g.files.filterMap files.get?) config := by
  obtain ⟨c, hcmem, hfiles, hconf, _, _⟩ := Dup.findDuplicates_mem hg
  constructor
  · intro p hp
    rw [hfiles] at hp
    have hnode : p ∈ (Dup.buildMatches files.values config).nodes := by
      refine Dup.clustersOuter_members_nodes _ _ _ _ (by intro S hS; simp at hS) ?_ c hcmem p hp
      intro k hk
      exact Dup.keys_subset_nodes k hk
    obtain ⟨f, hf, rfl⟩ := Dup.buildMatches_nodes hnode
    obtain ⟨e, he, hef⟩ := List.mem_map.mp hf
    apply Dup.mem_keys_get?_isSome
    have : f.path = e.1 := by rw [← hef]; exact hwf e he
    rw [this]
    exact List.mem_map.mpr ⟨e, he, rfl⟩
  · rw [hfiles, hconf]
    exact Dup.calculateGroupConfidence_eq_spec c files config

/-- C6 (witness): the pair-mean property at the concrete twin store. -/
theorem c6_confidence_is_pair_mean_witness :
    (∀ p ∈ Fixture.twinGroupOut.files, ∃ r, Fixture.twinMap.get? p = some r) ∧
    Fixture.twinGroupOut.confidence =
      Dup.specGroupConfidence (Fixture.twinGroupOut.files.filterMap Fixture.twinMap.get?)
        Fixture.cfg :=
  c6_confidence_is_pair_mean Fixture.twinMap Fixture.cfg (by decide)
    Fixture.twinGroupOut (by decide)

/-! ## Lemmas for the conflict resolver search -/

namespace Resolver

theorem mentions_iff {d : Decision} {f : String} :
    mentions d f = true ↔ f ∈ d.keep ∨ f ∈ d.delete := by
  simp [mentions]

theorem mem_reachList {D : List Decision} {f x : String} :
    x ∈ reachList D f ↔ ∃ d ∈ D, mentions d f = true ∧ mentions d x = true := by
  unfold reachList
  constructor
  · intro hx
    obtain ⟨d, hd, hxd⟩ := List.mem_flatMap.mp hx
    obtain ⟨hdD, hm⟩ := List.mem_filter.mp hd
    exact ⟨d, hdD, hm, mentions_iff.mpr (List.mem_append.mp hxd)⟩
  · rintro ⟨d, hdD, hm, hx⟩
    exact List.mem_flatMap.mpr ⟨d, List.mem_filter.mpr ⟨hdD, hm⟩,
      List.mem_append.mpr (mentions_iff.mp hx)⟩

theorem reachList_symm {D : List Decision} {f g : String}
    (h : g ∈ reachList D f) : f ∈ reachList D g := by
  obtain ⟨d, hd, hf, hg⟩ := mem_reachList.mp h
  exact mem_reachList.mpr ⟨d, hd, hg, hf⟩

theorem reachList_subset_allFiles {D : List Decision} {f x : String}
    (h : x ∈ reachList D f) : x ∈ allFiles D := by
  obtain ⟨d, hd, _, hx⟩ := mem_reachList.mp h
  exact List.mem_flatMap.mpr ⟨d, hd, List.mem_append.mpr (mentions_iff.mp hx)⟩

theorem reachList_length_le (D : List Decision) (f : String) :
    (reachList D f).length ≤ (allFiles D).length := by
  unfold reachList allFiles
  induction D with
  | nil => simp
  | cons d ds ih =>
    rw [List.filter_cons, List.flatMap_cons]
    by_cases h : mentions d f = true
    · rw [if_pos (by simpa using h)]
      rw [List.flatMap_cons]
      simp only [List.length_append]
      omega
    · rw [if_neg (by simpa using h)]
      simp only [List.length_append]
      omega

theorem connectedMeasure_queue_le (D : List Decision) (connected queue : List String) :
    queue.length ≤ connectedMeasure D connected queue := by
  unfold connectedMeasure
  omega

theorem connectedMeasure_skip {D : List Decision} {connected rest : List String}
    {file : String} :
    connectedMeasure D connected rest < connectedMeasure D connected (file :: rest) := by
  unfold connectedMeasure
  have hsub : ((allFiles D).toFinset ∪ rest.toFinset) \ connected.toFinset ⊆
      ((allFiles D).toFinset ∪ (file :: rest).toFinset) \ connected.toFinset := by
    intro x hx
    rw [Finset.mem_sdiff] at hx ⊢
    refine ⟨?_, hx.2⟩
    rcases Finset.mem_union.mp hx.1 with h | h
    · exact Finset.mem_union_left _ h
    · exact Finset.mem_union_right _ (by simp at h ⊢; exact Or.inr h)
  have := Finset.card_le_card hsub
  simp only [List.length_cons]
  nlinarith [this]

theorem connectedMeasure_visit {D : List Decision} {connected rest : List String}
    {file : String} (hnv : file ∉ connected) :
    connectedMeasure D (connected ++ [file])
        ((reachList D file).filter (fun n => !(connected ++ [file]).contains n) ++ rest) <
      connectedMeasure D connected (file :: rest) := by
  unfold connectedMeasure
  set connected' := connected ++ [file] with hv
  set pushed := (reachList D file).filter (fun n => !connected'.contains n) with hp
  have hcur : file ∈
      ((allFiles D).toFinset ∪ (file :: rest).toFinset) \ connected.toFinset := by
    rw [Finset.mem_sdiff]
    exact ⟨Finset.mem_union_right _ (by simp), by simpa using hnv⟩
  have hsub : ((allFiles D).toFinset ∪ (pushed ++ rest).toFinset) \ connected'.toFinset ⊆
      (((allFiles D).toFinset ∪ (file :: rest).toFinset) \ connected.toFinset).erase file := by
    intro x hx
    rw [Finset.mem_sdiff] at hx
    rw [Finset.mem_erase, Finset.mem_sdiff]
    have hxnotv : x ∉ connected'.toFinset → x ≠ file ∧ x ∉ connected.toFinset := by
      intro hxv
      constructor
      · intro hxc; exact hxv (by simp [hv, hxc])
      · intro hxv2; exact hxv (by simp [hv]; left; simpa using hxv2)
    obtain ⟨hne, hnv2⟩ := hxnotv hx.2
    refine ⟨hne, ?_, hnv2⟩
    rcases Finset.mem_union.mp hx.1 with h | h
    · exact Finset.mem_union_left _ h
    · rw [List.toFinset_append, Finset.mem_union] at h
      rcases h with h | h
      · have hxp : x ∈ pushed := by simpa using h
        have : x ∈ reachList D file := (List.mem_filter.mp hxp).1
        exact Finset.mem_union_left _ (by simpa using reachList_subset_allFiles this)
      · exact Finset.mem_union_right _ (by simp at h ⊢; exact Or.inr h)
  have hcard :
      (((allFiles D).toFinset ∪ (pushed ++ rest).toFinset) \ connected'.toFinset).card + 1 ≤
      (((allFiles D).toFinset ∪ (file :: rest).toFinset) \ connected.toFinset).card := by
    have h1 := Finset.card_le_card hsub
    have h2 := Finset.card_erase_of_mem hcur
    have h3 : 0 <
        (((allFiles D).toFinset ∪ (file :: rest).toFinset) \ connected.toFinset).card :=
      Finset.card_pos.mpr ⟨file, hcur⟩
    omega
  have hpush : pushed.length ≤ (allFiles D).length :=
    le_trans (List.length_filter_le _ _) (reachList_length_le D file)
  simp only [List.length_append, List.length_cons]
  nlinarith [hcard, hpush]

end Resolver

namespace Resolver

theorem connectedAux_mono (D : List Decision) :
    ∀ (fuel : Nat) (connected queue : List String) (x : String),
      x ∈ connected → x ∈ connectedAux D fuel connected queue := by
  intro fuel
  induction fuel with
  | zero => intro connected queue x hx; exact hx
  | succ f ih =>
    intro connected queue x hx
    cases queue with
    | nil => exact hx
    | cons file rest =>
      unfold connectedAux
      by_cases hc : connected.contains file
      · rw [if_pos hc]; exact ih _ _ x hx
      · rw [if_neg hc]
        exact ih _ _ x (by simp [hx])

theorem connectedAux_nodup (D : List Decision) :
    ∀ (fuel : Nat) (connected queue : List String),
      connected.Nodup → (connectedAux D fuel connected queue).Nodup := by
  intro fuel
  induction fuel with
  | zero => intro connected queue h1; exact h1
  | succ f ih =>
    intro connected queue h1
    cases queue with
    | nil => exact h1
    | cons file rest =>
      unfold connectedAux
      by_cases hc : connected.contains file
      · rw [if_pos hc]; exact ih _ _ h1
      · rw [if_neg hc]
        have hncv : file ∉ connected := by simpa using hc
        exact ih _ _ (by simpa [List.nodup_append] using ⟨h1, hncv⟩)

theorem connectedAux_queue_drained (D : List Decision) :
    ∀ (fuel : Nat) (connected queue : List String),
      connectedMeasure D connected queue ≤ fuel →
      ∀ x ∈ queue, x ∈ connectedAux D fuel connected queue := by
  intro fuel
  induction fuel with
  | zero =>
    intro connected queue hfuel x hx
    have := connectedMeasure_queue_le D connected queue
    have : queue = [] := List.eq_nil_of_length_eq_zero (by omega)
    subst this
    simp at hx
  | succ f ih =>
    intro connected queue hfuel x hx
    cases queue with
    | nil => simp at hx
    | cons file rest =>
      unfold connectedAux
      by_cases hc : connected.contains file
      · rw [if_pos hc]
        have hdec := @connectedMeasure_skip D connected rest file
        rcases List.mem_cons.mp hx with rfl | hx2
        · exact connectedAux_mono D f _ _ x (by simpa using hc)
        · exact ih _ _ (by omega) x hx2
      · rw [if_neg hc]
        have hncv : file ∉ connected := by simpa using hc
        have hdec := @connectedMeasure_visit D connected rest file hncv
        rcases List.mem_cons.mp hx with rfl | hx2
        · exact connectedAux_mono D f _ _ x (by simp)
        · exact ih _ _ (by omega) x (by simp [hx2])

theorem connectedAux_closed (D : List Decision) :
    ∀ (fuel : Nat) (connected queue : List String),
      connectedMeasure D connected queue ≤ fuel →
      (∀ v ∈ connected, ∀ w ∈ reachList D v, w ∈ connected ∨ w ∈ queue) →
      ∀ v ∈ connectedAux D fuel connected queue,
        ∀ w ∈ reachList D v, w ∈ connectedAux D fuel connected queue := by
  intro fuel
  induction fuel with
  | zero =>
    intro connected queue hfuel hpre v hv w hw
    have : queue = [] := List.eq_nil_of_length_eq_zero
      (by have := connectedMeasure_queue_le D connected queue; omega)
    subst this
    rcases hpre v hv w hw with h | h
    · exact h
    · simp at h
  | succ f ih =>
    intro connected queue hfuel hpre v hv w hw
    cases queue with
    | nil =>
      rcases hpre v hv w hw with h | h
      · exact h
      · simp at h
    | cons file rest =>
      unfold connectedAux at hv ⊢
      by_cases hc : connected.contains file
      · rw [if_pos hc] at hv ⊢
        have hdec := @connectedMeasure_skip D connected rest file
        refine ih _ _ (by omega) ?_ v hv w hw
        intro v2 hv2 w2 hw2
        rcases hpre v2 hv2 w2 hw2 with h | h
        · exact Or.inl h
        · rcases List.mem_cons.mp h with rfl | h2
          · exact Or.inl (by simpa using hc)
          · exact Or.inr h2
      · rw [if_neg hc] at hv ⊢
        have hncv : file ∉ connected := by simpa using hc
        have hdec := @connectedMeasure_visit D connected rest file hncv
        refine ih _ _ (by omega) ?_ v hv w hw
        intro v2 hv2 w2 hw2
        rcases List.mem_append.mp hv2 with h | h
        · rcases hpre v2 h w2 hw2 with h2 | h2
          · exact Or.inl (List.mem_append_left _ h2)
          · rcases List.mem_cons.mp h2 with rfl | h3
            · exact Or.inl (List.mem_append_right _ (by simp))
            · exact Or.inr (List.mem_append_right _ h3)
        · rw [List.mem_singleton] at h
          subst h
          by_cases hwv : w2 ∈ connected ++ [v2]
          · exact Or.inl hwv
          · refine Or.inr (List.mem_append_left _ ?_)
            rw [List.mem_filter]
            exact ⟨hw2, by simpa using hwv⟩

theorem connectedFuel_adequate (D : List Decision) (connected queue : List String) :
    connectedMeasure D connected queue ≤ connectedFuel D queue := by
  unfold connectedMeasure connectedFuel
  have hcard : (((allFiles D).toFinset ∪ queue.toFinset) \ connected.toFinset).card ≤
      (allFiles D).length + queue.length := by
    calc (((allFiles D).toFinset ∪ queue.toFinset) \ connected.toFinset).card
        ≤ ((allFiles D).toFinset ∪ queue.toFinset).card :=
          Finset.card_le_card (Finset.sdiff_subset)
      _ ≤ (allFiles D).toFinset.card + queue.toFinset.card := Finset.card_union_le _ _
      _ ≤ (allFiles D).length + queue.length :=
          Nat.add_le_add ((allFiles D).toFinset_card_le) (queue.toFinset_card_le)
  nlinarith [hcard]

theorem connectedAux_hull (D : List Decision) (S : String → Prop) :
    ∀ (fuel : Nat) (connected queue : List String),
      (∀ x ∈ connected, S x) → (∀ x ∈ queue, S x) →
      (∀ f g, S f → g ∈ reachList D f → S g) →
      ∀ x ∈ connectedAux D fuel connected queue, S x := by
  intro fuel
  induction fuel with
  | zero => intro connected queue hcon _ _ x hx; exact hcon x hx
  | succ f ih =>
    intro connected queue hcon hq hstep x hx
    cases queue with
    | nil => exact hcon x hx
    | cons file rest =>
      unfold connectedAux at hx
      by_cases hc : connected.contains file
      · rw [if_pos hc] at hx
        exact ih _ _ hcon (fun y hy => hq y (by simp [hy])) hstep x hx
      · rw [if_neg hc] at hx
        have hfile : S file := hq file (by simp)
        refine ih _ _ ?_ ?_ hstep x hx
        · intro y hy
          rcases List.mem_append.mp hy with h | h
          · exact hcon y h
          · rw [List.mem_singleton] at h; subst h; exact hfile
        · intro y hy
          rcases List.mem_append.mp hy with h | h
          · exact hstep file y hfile (List.mem_filter.mp h).1
          · exact hq y (by simp [h])

theorem findConnectedFiles_start (s : String) (D : List Decision) :
    s ∈ findConnectedFiles s D := by
  unfold findConnectedFiles
  exact connectedAux_queue_drained D _ _ _ (connectedFuel_adequate D [] [s]) s (by simp)

theorem findConnectedFiles_closed {s : String} {D : List Decision} :
    ∀ x ∈ findConnectedFiles s D, ∀ g ∈ reachList D x, g ∈ findConnectedFiles s D := by
  unfold findConnectedFiles
  exact connectedAux_closed D _ _ _ (connectedFuel_adequate D [] [s])
    (by intro v hv; simp at hv)

theorem findConnectedFiles_nodup (s : String) (D : List Decision) :
    (findConnectedFiles s D).Nodup := by
  unfold findConnectedFiles
  exact connectedAux_nodup D _ _ _ List.nodup_nil

theorem findConnectedFiles_hull {s : String} {D : List Decision} (S : String → Prop)
    (hs : S s) (hstep : ∀ f g, S f → g ∈ reachList D f → S g) :
    ∀ x ∈ findConnectedFiles s D, S x := by
  unfold findConnectedFiles
  refine connectedAux_hull D S _ _ _ (by intro x hx; simp at hx) ?_ hstep
  intro x hx
  rw [List.mem_singleton] at hx
  subst hx
  exact hs

theorem findConnectedFiles_disjoint {s2 : String} {D : List Decision}
    {comp1 : List String} (hcl : ∀ f ∈ comp1, ∀ g ∈ reachList D f, g ∈ comp1)
    (hs2 : s2 ∉ comp1) :
    ∀ x ∈ findConnectedFiles s2 D, x ∉ comp1 := by
  refine findConnectedFiles_hull (fun x => x ∉ comp1) hs2 ?_
  intro f g hf hg hgc
  exact hf (hcl g hgc f (reachList_symm hg))

end Resolver

namespace Resolver

theorem componentsAux_acc_mono (D : List Decision) :
    ∀ (seeds : List String) (processed : List String) (acc : List (List String))
      (c : List String), c ∈ acc → c ∈ componentsAux D processed acc seeds := by
  intro seeds
  induction seeds with
  | nil => intro processed acc c hc; exact hc
  | cons s rest ih =>
    intro processed acc c hc
    unfold componentsAux
    by_cases hs : processed.contains s
    · rw [if_pos hs]; exact ih _ _ c hc
    · rw [if_neg hs]
      exact ih _ _ c (by simp [hc])

theorem componentsAux_mem (D : List Decision) :
    ∀ (seeds : List String) (processed : List String) (acc : List (List String))
      (c : List String), c ∈ componentsAux D processed acc seeds →
      c ∈ acc ∨ ∃ s, c = findConnectedFiles s D := by
  intro seeds
  induction seeds with
  | nil => intro processed acc c hc; exact Or.inl hc
  | cons s rest ih =>
    intro processed acc c hc
    unfold componentsAux at hc
    by_cases hs : processed.contains s
    · rw [if_pos hs] at hc; exact ih _ _ c hc
    · rw [if_neg hs] at hc
      rcases ih _ _ c hc with h | h
      · rcases List.mem_append.mp h with h2 | h2
        · exact Or.inl h2
        · rw [List.mem_singleton] at h2
          exact Or.inr ⟨s, h2⟩
      · exact Or.inr h

theorem componentsAux_covers (D : List Decision) :
    ∀ (seeds : List String) (processed : List String) (acc : List (List String)),
      (∀ p ∈ processed, ∃ c ∈ acc, p ∈ c) →
      ∀ s ∈ seeds, ∃ c ∈ componentsAux D processed acc seeds, s ∈ c := by
  intro seeds
  induction seeds with
  | nil => intro processed acc _ s hs; simp at hs
  | cons s0 rest ih =>
    intro processed acc hinv s hs
    unfold componentsAux
    by_cases h0 : processed.contains s0
    · rw [if_pos h0]
      rcases List.mem_cons.mp hs with rfl | hs2
      · obtain ⟨c, hc, hsc⟩ := hinv s (by simpa using h0)
        exact ⟨c, componentsAux_acc_mono D _ _ _ c hc, hsc⟩
      · exact ih _ _ hinv s hs2
    · rw [if_neg h0]
      have hinv2 : ∀ p ∈ processed ++ findConnectedFiles s0 D,
          ∃ c ∈ acc ++ [findConnectedFiles s0 D], p ∈ c := by
        intro p hp
        rcases List.mem_append.mp hp with h | h
        · obtain ⟨c, hc, hpc⟩ := hinv p h
          exact ⟨c, List.mem_append_left _ hc, hpc⟩
        · exact ⟨findConnectedFiles s0 D, List.mem_append_right _ (by simp), h⟩
      rcases List.mem_cons.mp hs with rfl | hs2
      · refine ⟨findConnectedFiles s D, ?_, findConnectedFiles_start s D⟩
        exact componentsAux_acc_mono D _ _ _ _ (by simp)
      · exact ih _ _ hinv2 s hs2

theorem componentsAux_pairwise (D : List Decision) :
    ∀ (seeds : List String) (processed : List String) (acc : List (List String)),
      (∀ c ∈ acc, ∀ x ∈ c, x ∈ processed) →
      (∀ c ∈ acc, ∀ f ∈ c, ∀ g ∈ reachList D f, g ∈ c) →
      (∀ c1 ∈ acc, ∀ c2 ∈ acc, c1 = c2 ∨ ∀ x ∈ c1, x ∉ c2) →
      ∀ c1 ∈ componentsAux D processed acc seeds,
        ∀ c2 ∈ componentsAux D processed acc seeds,
          c1 = c2 ∨ ∀ x ∈ c1, x ∉ c2 := by
  intro seeds
  induction seeds with
  | nil => intro processed acc _ _ hpair c1 hc1 c2 hc2; exact hpair c1 hc1 c2 hc2
  | cons s0 rest ih =>
    intro processed acc hsub hcl hpair c1 hc1 c2 hc2
    unfold componentsAux at hc1 hc2
    by_cases h0 : processed.contains s0
    · rw [if_pos h0] at hc1 hc2
      exact ih _ _ hsub hcl hpair c1 hc1 c2 hc2
    · rw [if_neg h0] at hc1 hc2
      have hns0 : s0 ∉ processed := by simpa using h0
      have hcomp_cl : ∀ f ∈ findConnectedFiles s0 D, ∀ g ∈ reachList D f,
          g ∈ findConnectedFiles s0 D := findConnectedFiles_closed
      have hdis : ∀ c ∈ acc, ∀ x ∈ findConnectedFiles s0 D, x ∉ c := by
        intro c hc
        refine findConnectedFiles_disjoint (hcl c hc) ?_
        intro hs0c
        exact hns0 (hsub c hc s0 hs0c)
      refine ih _ _ ?_ ?_ ?_ c1 hc1 c2 hc2
      · intro c hc x hx
        rcases List.mem_append.mp hc with h | h
        · exact List.mem_append_left _ (hsub c h x hx)
        · rw [List.mem_singleton] at h
          subst h
          exact List.mem_append_right _ hx
      · intro c hc
        rcases List.mem_append.mp hc with h | h
        · exact hcl c h
        · rw [List.mem_singleton] at h
          subst h
          exact hcomp_cl
      · intro d1 hd1 d2 hd2
        rcases List.mem_append.mp hd1 with h1 | h1 <;>
          rcases List.mem_append.mp hd2 with h2 | h2
        · exact hpair d1 h1 d2 h2
        · rw [List.mem_singleton] at h2
          subst h2
          refine Or.inr ?_
          intro x hx1 hx2
          exact hdis d1 h1 x hx2 hx1
        · rw [List.mem_singleton] at h1
          subst h1
          exact Or.inr (hdis d2 h2)
        · rw [List.mem_singleton] at h1 h2
          subst h1; subst h2
          exact Or.inl rfl

theorem mem_firstDedupAux :
    ∀ (l acc : List String) (x : String),
      x ∈ firstDedupAux acc l ↔ x ∈ acc ∨ x ∈ l := by
  intro l
  induction l with
  | nil => intro acc x; simp [firstDedupAux]
  | cons y ys ih =>
    intro acc x
    unfold firstDedupAux
    by_cases hy : acc.contains y
    · rw [if_pos hy]
      rw [ih]
      have hyacc : y ∈ acc := by simpa using hy
      constructor
      · rintro (h | h)
        · exact Or.inl h
        · exact Or.inr (by simp [h])
      · rintro (h | h)
        · exact Or.inl h
        · rcases List.mem_cons.mp h with rfl | h2
          · exact Or.inl hyacc
          · exact Or.inr h2
    · rw [if_neg hy]
      rw [ih]
      constructor
      · rintro (h | h)
        · rcases List.mem_append.mp h with h2 | h2
          · exact Or.inl h2
          · rw [List.mem_singleton] at h2; exact Or.inr (by simp [h2])
        · exact Or.inr (by simp [h])
      · rintro (h | h)
        · exact Or.inl (List.mem_append_left _ h)
        · rcases List.mem_cons.mp h with rfl | h2
          · exact Or.inl (List.mem_append_right _ (by simp))
          · exact Or.inr h2

theorem detectConflicts_mem {D : List Decision} {f : String} :
    f ∈ detectConflicts D ↔
      (∃ d ∈ D, f ∈ d.keep) ∧ (∃ d ∈ D, f ∈ d.delete) := by
  unfold detectConflicts
  rw [List.mem_filter, mem_firstDedupAux]
  constructor
  · rintro ⟨h1, h2⟩
    rcases h1 with h1 | h1
    · simp at h1
    · obtain ⟨d, hd, hfd⟩ := List.mem_flatMap.mp h1
      refine ⟨⟨d, hd, hfd⟩, ?_⟩
      obtain ⟨d2, hd2, hfd2⟩ := List.any_eq_true.mp h2
      exact ⟨d2, hd2, by simpa using hfd2⟩
  · rintro ⟨⟨d1, hd1, hf1⟩, ⟨d2, hd2, hf2⟩⟩
    refine ⟨Or.inr (List.mem_flatMap.mpr ⟨d1, hd1, hf1⟩), ?_⟩
    exact List.any_eq_true.mpr ⟨d2, hd2, by simpa using hf2⟩

theorem mem_involvedGroupsOf {D : List Decision} {d : Decision} {f : String}
    {comp : List String} (hd : d ∈ D) (hf : f ∈ comp) (hm : mentions d f = true) :
    d.groupId ∈ involvedGroupsOf D comp := by
  unfold involvedGroupsOf
  refine List.mem_map.mpr ⟨d, List.mem_filter.mpr ⟨hd, ?_⟩, rfl⟩
  exact List.any_eq_true.mpr ⟨f, hf, hm⟩

end Resolver

namespace Resolver

theorem sortByScoreDesc_headMem {l : List String} {x : String} {xs : List String}
    (h : sortByScoreDesc l = x :: xs) : x ∈ l := by
  unfold sortByScoreDesc at h
  exact sortJs_head_mem _ _ x xs h

theorem sortByScoreDesc_tail_mem {l : List String} {x : String}
    (h : x ∈ (sortByScoreDesc l).tail) : x ∈ l := by
  unfold sortByScoreDesc at h
  exact (sortJs_mem _ _ x).mp (List.mem_of_mem_tail h)

theorem sortByScoreDesc_nodup {l : List String} (h : l.Nodup) :
    (sortByScoreDesc l).Nodup := by
  unfold sortByScoreDesc
  exact sortJs_nodup _ _ h

theorem resolveComponent_keep_sub (D : List Decision) (comp : List String) :
    ∀ x ∈ (resolveComponent D comp).keep, x ∈ comp := by
  intro x hx
  unfold resolveComponent at hx
  dsimp only at hx
  by_cases hA : (firstDedupAux [] (comp.filterMap extractArtist)).length > 1
  · rw [if_pos hA] at hx
    dsimp only at hx
    obtain ⟨cell, hcell, hhead⟩ := List.mem_filterMap.mp hx
    obtain ⟨a, ha, rfl⟩ := List.mem_map.mp hcell
    cases hs : sortByScoreDesc (comp.filter fun f => extractArtist f = some a) with
    | nil => rw [hs] at hhead; simp at hhead
    | cons y ys =>
      rw [hs] at hhead
      simp only [List.head?_cons, Option.some.injEq] at hhead
      have hxcell : x ∈ comp.filter (fun f => extractArtist f = some a) := by
        rw [← hhead]
        exact sortByScoreDesc_headMem hs
      exact (List.mem_filter.mp hxcell).1
  · rw [if_neg hA] at hx
    dsimp only at hx
    have hx2 : x ∈ sortByScoreDesc comp := List.mem_of_mem_take hx
    unfold sortByScoreDesc at hx2
    exact (sortJs_mem _ _ x).mp hx2

theorem resolveComponent_delete_sub (D : List Decision) (comp : List String) :
    ∀ x ∈ (resolveComponent D comp).delete, x ∈ comp := by
  intro x hx
  unfold resolveComponent at hx
  dsimp only at hx
  by_cases hA : (firstDedupAux [] (comp.filterMap extractArtist)).length > 1
  · rw [if_pos hA] at hx
    dsimp only at hx
    rcases List.mem_append.mp hx with h | h
    · obtain ⟨cell, hcell, hxt⟩ := List.mem_flatMap.mp h
      obtain ⟨a, ha, rfl⟩ := List.mem_map.mp hcell
      exact (List.mem_filter.mp (sortByScoreDesc_tail_mem hxt)).1
    · exact (List.mem_filter.mp h).1
  · rw [if_neg hA] at hx
    dsimp only at hx
    have hx2 : x ∈ sortByScoreDesc comp := List.mem_of_mem_drop hx
    unfold sortByScoreDesc at hx2
    exact (sortJs_mem _ _ x).mp hx2

theorem resolveComponent_disjoint (D : List Decision) (comp : List String)
    (hnd : comp.Nodup) :
    ∀ x ∈ (resolveComponent D comp).keep, x ∉ (resolveComponent D comp).delete := by
  intro x hxk hxd
  unfold resolveComponent at hxk hxd
  dsimp only at hxk hxd
  by_cases hA : (firstDedupAux [] (comp.filterMap extractArtist)).length > 1
  · rw [if_pos hA] at hxk hxd
    dsimp only at hxk hxd
    obtain ⟨cellK, hcellK, hheadK⟩ := List.mem_filterMap.mp hxk
    obtain ⟨aK, haK, rfl⟩ := List.mem_map.mp hcellK
    cases hsK : sortByScoreDesc (comp.filter fun f => extractArtist f = some aK) with
    | nil => rw [hsK] at hheadK; simp at hheadK
    | cons y ys =>
      rw [hsK] at hheadK
      simp only [List.head?_cons, Option.some.injEq] at hheadK
      have hxK : x ∈ comp.filter (fun f => extractArtist f = some aK) := by
        rw [← hheadK]
        exact sortByScoreDesc_headMem hsK
      have hart : extractArtist x = some aK :=
        of_decide_eq_true (List.mem_filter.mp hxK).2
      rcases List.mem_append.mp hxd with h | h
      · obtain ⟨cellD, hcellD, hxt⟩ := List.mem_flatMap.mp h
        obtain ⟨aD, haD, rfl⟩ := List.mem_map.mp hcellD
        have hxD : x ∈ comp.filter (fun f => extractArtist f = some aD) :=
          sortByScoreDesc_tail_mem hxt
        have hartD : extractArtist x = some aD :=
          of_decide_eq_true (List.mem_filter.mp hxD).2
        have haa : aK = aD := Option.some.inj (hart.symm.trans hartD)
        subst haa
        rw [hsK] at hxt
        simp only [List.tail_cons] at hxt
        have hnds : (y :: ys).Nodup := by
          rw [← hsK]
          exact sortByScoreDesc_nodup (List.Nodup.filter _ hnd)
        have hyy : y ∉ ys := (List.nodup_cons.mp hnds).1
        rw [hheadK] at hyy
        exact hyy hxt
      · have hnone : extractArtist x = none :=
          of_decide_eq_true (List.mem_filter.mp h).2
        rw [hart] at hnone
        simp at hnone
  · rw [if_neg hA] at hxk hxd
    dsimp only at hxk hxd
    cases hs : sortByScoreDesc comp with
    | nil => rw [hs] at hxk; simp at hxk
    | cons y ys =>
      rw [hs] at hxk hxd
      simp only [List.take_succ_cons, List.take_zero] at hxk
      rw [List.mem_singleton] at hxk
      simp only [List.drop_succ_cons, List.drop_zero] at hxd
      have hnds : (y :: ys).Nodup := by
        rw [← hs]
        exact sortByScoreDesc_nodup hnd
      rw [hxk] at hxd
      exact (List.nodup_cons.mp hnds).1 hxd

theorem resolveComponent_involved (D : List Decision) (comp : List String) :
    (resolveComponent D comp).involvedGroups = involvedGroupsOf D comp := by
  unfold resolveComponent
  dsimp only
  split <;> rfl

theorem sndMem_of_mem_enumFrom :
    ∀ (l : List α) (n : Nat) (p : Nat × α), p ∈ l.enumFrom n → p.2 ∈ l := by
  intro l
  induction l with
  | nil => intro n p h; simp at h
  | cons x xs ih =>
    intro n p h
    simp only [List.enumFrom] at h
    rcases List.mem_cons.mp h with rfl | h2
    · simp
    · exact List.mem_cons_of_mem _ (ih _ p h2)

theorem buildResolvedDecisions_spec (rs : List Resolution) :
    ∀ dec ∈ buildResolvedDecisions rs, ∃ r ∈ rs,
      (∀ x ∈ dec.keep, x ∈ r.keep) ∧ (∀ x ∈ dec.delete, x ∈ r.delete) := by
  intro dec hdec
  unfold buildResolvedDecisions at hdec
  obtain ⟨ir, hir, hdec2⟩ := List.mem_flatMap.mp hdec
  have hrmem : ir.2 ∈ rs := sndMem_of_mem_enumFrom rs 0 ir hir
  refine ⟨ir.2, hrmem, ?_⟩
  dsimp only at hdec2
  by_cases hT : ir.2.notDuplicates = true
  · rw [if_pos hT] at hdec2
    rcases List.mem_append.mp hdec2 with hk | hd
    · obtain ⟨jk, hjk, rfl⟩ := List.mem_map.mp hk
      constructor
      · intro x hx
        simp only [List.mem_singleton] at hx
        subst hx
        exact sndMem_of_mem_enumFrom _ 0 jk hjk
      · intro x hx
        simp at hx
    · by_cases hE : ir.2.delete.isEmpty = true
      · rw [if_pos hE] at hd
        simp at hd
      · rw [if_neg hE] at hd
        rw [List.mem_singleton] at hd
        subst hd
        exact ⟨fun x hx => by simp at hx, fun x hx => hx⟩
  · rw [if_neg hT] at hdec2
    rw [List.mem_singleton] at hdec2
    subst hdec2
    exact ⟨fun x hx => hx, fun x hx => hx⟩

end Resolver

namespace Resolver

theorem resolveWith_no_overlap (D : List Decision) (seeds : List String)
    (hseeds : ∀ f, (∃ d ∈ D, f ∈ d.keep) → (∃ d ∈ D, f ∈ d.delete) → f ∈ seeds) :
    ∀ d1 ∈ resolveWith D seeds, ∀ d2 ∈ resolveWith D seeds,
      ∀ f, f ∈ d1.keep → f ∉ d2.delete := by
  intro d1 hd1 d2 hd2 f hfk hfd
  unfold resolveWith at hd1 hd2
  dsimp only at hd1 hd2
  rw [List.mem_append] at hd1 hd2
  have hcomps_mem : ∀ c ∈ componentsAux D [] [] seeds,
      ∃ s, c = findConnectedFiles s D := by
    intro c hc
    rcases componentsAux_mem D seeds [] [] c hc with h | h
    · simp at h
    · exact h
  have hcover : ∀ s ∈ seeds, ∃ c ∈ componentsAux D [] [] seeds, s ∈ c :=
    componentsAux_covers D seeds [] [] (by intro p hp; simp at hp)
  have hpair := componentsAux_pairwise D seeds [] []
    (by intro c hc; simp at hc) (by intro c hc; simp at hc) (by intro c hc; simp at hc)
  have hsurv : ∀ (d : Decision), d ∈ D →
      (!(((componentsAux D [] [] seeds).map (resolveComponent D)).flatMap
        (fun r => r.involvedGroups)).contains d.groupId) = true →
      ∀ g, mentions d g = true → ∀ c ∈ componentsAux D [] [] seeds, g ∉ c := by
    intro d hdD hns g hm c hc hg
    have hgid : d.groupId ∈ involvedGroupsOf D c := mem_involvedGroupsOf hdD hg hm
    have hmemflat : d.groupId ∈ ((componentsAux D [] [] seeds).map
        (resolveComponent D)).flatMap (fun r => r.involvedGroups) :=
      List.mem_flatMap.mpr ⟨resolveComponent D c, List.mem_map_of_mem _ hc,
        by rw [resolveComponent_involved]; exact hgid⟩
    have hnot : d.groupId ∉ ((componentsAux D [] [] seeds).map
        (resolveComponent D)).flatMap (fun r => r.involvedGroups) := by
      simpa using hns
    exact hnot hmemflat
  have hbuilt : ∀ (d : Decision), d ∈ buildResolvedDecisions
      ((componentsAux D [] [] seeds).map (resolveComponent D)) →
      ∃ c ∈ componentsAux D [] [] seeds,
        (∀ x ∈ d.keep, x ∈ (resolveComponent D c).keep) ∧
        (∀ x ∈ d.delete, x ∈ (resolveComponent D c).delete) := by
    intro d hd
    obtain ⟨r, hr, hkeep, hdel⟩ := buildResolvedDecisions_spec _ d hd
    obtain ⟨c, hc, rfl⟩ := List.mem_map.mp hr
    exact ⟨c, hc, hkeep, hdel⟩
  rcases hd1 with hd1 | hd1
  · rw [List.mem_filter] at hd1
    obtain ⟨hd1D, hs1⟩ := hd1
    rcases hd2 with hd2 | hd2
    · rw [List.mem_filter] at hd2
      obtain ⟨hd2D, hs2⟩ := hd2
      have hfseed : f ∈ seeds := hseeds f ⟨d1, hd1D, hfk⟩ ⟨d2, hd2D, hfd⟩
      obtain ⟨c, hc, hfc⟩ := hcover f hfseed
      exact hsurv d1 hd1D hs1 f (mentions_iff.mpr (Or.inl hfk)) c hc hfc
    · obtain ⟨c, hc, hkeep2, hdel2⟩ := hbuilt d2 hd2
      have hfc : f ∈ c := resolveComponent_delete_sub D c f (hdel2 f hfd)
      exact hsurv d1 hd1D hs1 f (mentions_iff.mpr (Or.inl hfk)) c hc hfc
  · obtain ⟨c1, hc1, hkeep1, hdel1⟩ := hbuilt d1 hd1
    have hfc1 : f ∈ c1 := resolveComponent_keep_sub D c1 f (hkeep1 f hfk)
    rcases hd2 with hd2 | hd2
    · rw [List.mem_filter] at hd2
      obtain ⟨hd2D, hs2⟩ := hd2
      exact hsurv d2 hd2D hs2 f (mentions_iff.mpr (Or.inr hfd)) c1 hc1 hfc1
    · obtain ⟨c2, hc2, hkeep2, hdel2⟩ := hbuilt d2 hd2
      have hfc2 : f ∈ c2 := resolveComponent_delete_sub D c2 f (hdel2 f hfd)
      rcases hpair c1 hc1 c2 hc2 with heq | hdisj
      · subst heq
        obtain ⟨s, rfl⟩ := hcomps_mem c1 hc1
        exact resolveComponent_disjoint D _ (findConnectedFiles_nodup s D) f
          (hkeep1 f hfk) (hdel2 f hfd)
      · exact hdisj f hfc1 hfc2

theorem resolveWith_nil (D : List Decision) : resolveWith D [] = D := by
  unfold resolveWith
  dsimp only
  rw [show componentsAux D [] [] ([] : List String) = [] from rfl]
  simp [buildResolvedDecisions]

theorem detectConflicts_resolve (D : List Decision) :
    detectConflicts (resolve D) = [] := by
  have hno : ∀ d1 ∈ resolve D, ∀ d2 ∈ resolve D, ∀ f, f ∈ d1.keep → f ∉ d2.delete := by
    unfold resolve
    exact resolveWith_no_overlap D (detectConflicts D)
      (fun f hk hdel => detectConflicts_mem.mpr ⟨hk, hdel⟩)
  unfold detectConflicts
  rw [List.filter_eq_nil]
  intro a ha hpred
  rw [mem_firstDedupAux] at ha
  rcases ha with h | h
  · simp at h
  · obtain ⟨d1, hd1, had1⟩ := List.mem_flatMap.mp h
    obtain ⟨d2, hd2, had2⟩ := List.any_eq_true.mp hpred
    exact hno d1 hd1 d2 hd2 a had1 (by simpa using had2)

end Resolver

/-! ## Claim C2 -/

/-- C2: conflict resolution is idempotent — running the conflict
detector on the output of the resolution pass finds zero conflicts, so
applying the resolution pass to its own output returns the decision
list unchanged: `resolve (resolve D) = resolve D` for every decision
list `D`. -/
theorem c2_resolve_idempotent (D : List Resolver.Decision) :
    Resolver.detectConflicts (Resolver.resolve D) = [] ∧
      Resolver.resolve (Resolver.resolve D) = Resolver.resolve D := by
  refine ⟨Resolver.detectConflicts_resolve D, ?_⟩
  show Resolver.resolveWith (Resolver.resolve D)
    (Resolver.detectConflicts (Resolver.resolve D)) = Resolver.resolve D
  rw [Resolver.detectConflicts_resolve D, Resolver.resolveWith_nil]
